import Mathlib

/-!
A verification development for the content relevance and selection engine of
`src/frontend/script.js` (news-assistant).  Strings are modelled as `List Char`;
the JS functions are translated definition-by-definition, keeping their names.
Globals and DOM reads (`domainTerms`, the `feedGroup` select value, filter
checkboxes, selected-headline checkboxes) become explicit parameters.
Unicode-sensitive JS primitives (`toLowerCase`, `trim`, regex `\s`) are modelled
by Lean's ASCII `Char.toLower` / `Char.isWhitespace`; no claim depends on
non-ASCII input.
-/

namespace NewsAssistant

abbrev Str := List Char

/-- The fixed stopword set of `script.js` (line 461). -/
def STOPWORDS : List Str :=
  (["the", "a", "an", "of", "for", "and", "to", "in", "on", "at", "with",
    "from", "by", "about", "as", "is", "are", "was", "were", "be", "been",
    "it", "this", "that", "these", "those", "you", "your"] : List String).map
    String.data

/-- JS `String.prototype.trim` (leading part). -/
def trimLeft (s : Str) : Str := s.dropWhile Char.isWhitespace

/-- JS `String.prototype.trim`: strip whitespace from both ends. -/
def trim (s : Str) : Str :=
  ((trimLeft s).reverse.dropWhile Char.isWhitespace).reverse

/-- Collapse every maximal run of whitespace into one space, as
`replace(/\s+/g, ' ')` does.  The boolean flag records whether the previous
character was whitespace. -/
def collapseWSAux : Bool → Str → Str
  | _, [] => []
  | prevWS, c :: cs =>
    if c.isWhitespace then
      (if prevWS then [] else [' ']) ++ collapseWSAux true cs
    else c :: collapseWSAux false cs

def collapseWS (s : Str) : Str := collapseWSAux false s

/-- Model of `normalizeText` (line 463): lowercase, turn every character that is not a
lowercase letter, digit or whitespace into a space, collapse whitespace runs,
trim. -/
def normalizeText (s : Str) : Str :=
  trim (collapseWS ((s.map Char.toLower).map
    (fun c =>
      if ('a' ≤ c && c ≤ 'z') || ('0' ≤ c && c ≤ '9') || c.isWhitespace then c
      else ' ')))

/-- JS `split(' ')` on a `List Char` string. -/
def splitSpaceAux : Str → Str → List Str
  | acc, [] => [acc.reverse]
  | acc, c :: cs =>
    if c = ' ' then acc.reverse :: splitSpaceAux [] cs
    else splitSpaceAux (c :: acc) cs

def splitSpace (s : Str) : List Str := splitSpaceAux [] s

/-- Model of `tokensFromText` (line 522): normalized words of length ≥ 3 that are not
stopwords. -/
def tokensFromText (text : Str) : List Str :=
  (splitSpace (normalizeText text)).filter
    (fun t => decide (3 ≤ t.length) && !decide (t ∈ STOPWORDS))

/-- The ordered suffix-rewrite table of `simpleStem` (lines 476-512),
in source order, duplicates included. -/
def stemRules : List (Str × Str) :=
  ([("ically", "ic"), ("ally", "al"), ("ingly", "ing"), ("iness", "y"),
    ("fulness", "ful"), ("ations", "ation"), ("tional", "tion"),
    ("ational", "ation"), ("ively", "ive"), ("ously", "ous"),
    ("lessness", "less"), ("ments", "ment"), ("ment", "ment"), ("ness", ""),
    ("less", "less"), ("ships", "ship"), ("ship", "ship"), ("ings", "ing"),
    ("ing", ""), ("ized", "ize"), ("izes", "ize"), ("izer", "ize"),
    ("edly", "ed"), ("edly", "ed"), ("ed", ""), ("ers", "er"), ("er", ""),
    ("ies", "y"), ("ics", "ic"), ("ical", "ic"), ("ials", "ial"),
    ("ial", "ial"), ("als", "al"), ("al", "al"), ("s", "")] :
    List (String × String)).map (fun p => (p.1.data, p.2.data))

/-- Model of `simpleStem` (line 473): lowercase, then apply the first applicable rule
whose application keeps at least 3 characters before the suffix. -/
def simpleStem (w : Str) : Str :=
  let s := w.map Char.toLower
  match stemRules.find? (fun p => List.isSuffixOf p.1 s && decide (3 ≤ s.length - p.1.length)) with
  | some p => s.take (s.length - p.1.length) ++ p.2
  | none => s

/-- Model of `tokensContainStem` (line 527): fuzzy stem containment. -/
def tokensContainStem (tokens : List Str) (queryToken : Str) : Bool :=
  let q := simpleStem queryToken
  tokens.any (fun tok =>
    let st := simpleStem tok
    decide (st = q) ||
      (List.isPrefixOf q st && decide (st.length - q.length ≤ 3)) ||
      (List.isPrefixOf st q && decide (q.length - st.length ≤ 2)))

/-- The query structure produced by `parseQueryParts` and expanded by
`expandQueryWithDomain`.  The JS parser object carries only `phrases` and
`tokens`; the absent `excludeTokens` / `anchorTokens` fields are modelled as
`[]` (JS reads of the absent fields see `undefined`, which every use site
treats like an empty array). -/
structure QueryParts where
  phrases : List Str
  tokens : List Str
  excludeTokens : List Str
  anchorTokens : List Str
  deriving DecidableEq, Repr

/-- The state machine behind the global regex `/"([^"]+)"/g` of
`parseQueryParts` (line 648): returns the matched contents (untrimmed, in
order) and the string with each matched span replaced by one space, exactly as
`q.replace(re, ' ')` does.  `none` means "not inside a candidate match";
`some acc` holds the reversed content collected since an opening quote. -/
def scanPhrasesAux : Option Str → Str → List Str × Str
  | none, [] => ([], [])
  | none, c :: cs =>
    if c = '"' then scanPhrasesAux (some []) cs
    else
      let (ps, r) := scanPhrasesAux none cs
      (ps, c :: r)
  | some acc, [] => ([], '"' :: acc.reverse)
  | some acc, c :: cs =>
    if c = '"' then
      if acc = [] then
        let (ps, r) := scanPhrasesAux (some []) cs
        (ps, '"' :: r)
      else
        let (ps, r) := scanPhrasesAux none cs
        (acc.reverse :: ps, ' ' :: r)
    else scanPhrasesAux (some (c :: acc)) cs

/-- Model of `parseQueryParts` (line 642): quoted spans become phrases (trimmed,
non-empty, in order); the remainder is normalized and split into informative
tokens. -/
def parseQueryParts (q : Str) : QueryParts :=
  if q = [] then ⟨[], [], [], []⟩
  else
    let (raw, rest) := scanPhrasesAux none q
    let phrases := (raw.map trim).filter (fun p => !p.isEmpty)
    let tokens := (splitSpace (normalizeText rest)).filter
      (fun t => decide (3 ≤ t.length) && !decide (t ∈ STOPWORDS))
    ⟨phrases, tokens, [], []⟩

/-- JS regex `\w`. -/
def isWordChar (c : Char) : Bool := c.isAlphanum || c = '_'

/-- Plain substring test, `new RegExp(escapeRegExp(a)).test(text)` /
`String.prototype.includes`. -/
def containsSub (a : Str) : Str → Bool
  | [] => decide (a = [])
  | c :: cs => List.isPrefixOf a (c :: cs) || containsSub a cs

/-- Case-insensitive prefix test (regex `i` flag). -/
def ciStartsWith (t text : Str) : Bool :=
  List.isPrefixOf (t.map Char.toLower) (text.map Char.toLower)

/-- A `\b` assertion between the previous character (`none` at the string
start) and a character of wordness `w`. -/
def boundaryOK (prev : Option Char) (w : Bool) : Bool :=
  match prev with
  | none => w
  | some c => isWordChar c != w

/-- Does `\b t \b` (with the `i` flag) match `text` at its start, given the
character just before `text`?  Empty patterns never arise from the call sites
(tokens have length ≥ 2); they are conventionally unmatched. -/
def wbMatchHere (prev : Option Char) (text t : Str) : Bool :=
  match t with
  | [] => false
  | f :: _ =>
    match t.getLast? with
    | none => false
    | some l =>
      boundaryOK prev (isWordChar f) && ciStartsWith t text &&
        boundaryOK ((text.drop t.length).head?) (isWordChar l)

/-- Scan all positions of the text for a `\b t \b` match. -/
def wbAux (t : Str) : Option Char → Str → Bool
  | prev, [] => wbMatchHere prev [] t
  | prev, c :: cs => wbMatchHere prev (c :: cs) t || wbAux t (some c) cs

/-- Model of `new RegExp('\\b' + escapeRegExp(t) + '\\b', 'i').test(text)` for the
word-boundary token tests of `headlineSearchScore` (line 682) and the region
regexes. -/
def wordBoundaryTest (text t : Str) : Bool := wbAux t none text

/-- After one mandatory whitespace character, skip further whitespace and
require `b` as a prefix: the `\s+` part of patterns like `downing\s+street`. -/
def wsThen (b : Str) : Str → Bool
  | [] => false
  | c :: cs => c.isWhitespace && (List.isPrefixOf b cs || wsThen b cs)

/-- Does `a\s+b` match somewhere in `text`? -/
def seqWS (a b : Str) : Str → Bool
  | [] => false
  | c :: cs =>
    (List.isPrefixOf a (c :: cs) && wsThen b ((c :: cs).drop a.length)) ||
      seqWS a b cs

/-- The politics section of the optional domain-terms document.  The region
maps are JS objects iterated with `Object.keys`; they are modelled as
association lists in key-insertion order (an absent map behaves exactly like
an empty one at every use site). -/
structure PoliticsTerms where
  synonyms : List Str
  related_terms : List Str
  parties : List (Str × List Str)
  institutions : List (Str × List Str)
  people : List (Str × List Str)
  deriving DecidableEq, Repr

/-- The domain-terms document (`domainTerms` global). -/
structure DomainTerms where
  politics : Option PoliticsTerms
  deriving DecidableEq, Repr

/-- First value stored under key `k` (JS property read on an object literal). -/
def assocGet (m : List (Str × List Str)) (k : Str) : Option (List Str) :=
  (m.find? (fun p => p.1 = k)).map (fun p => p.2)

/-- First-occurrence deduplication, as a JS `Set` built by repeated `add`. -/
def dedupFirstAux (seen : List Str) : List Str → List Str
  | [] => []
  | x :: xs =>
    if x ∈ seen then dedupFirstAux seen xs
    else x :: dedupFirstAux (x :: seen) xs

def dedupFirst (l : List Str) : List Str := dedupFirstAux [] l

/-- Model of `shouldUsePoliticsDomain` (line 203). -/
def shouldUsePoliticsDomain (query : Str) : Bool :=
  let q := query.map Char.toLower
  (["politic", "parliament", "congress", "senate", "election", "government",
    "whitehall"] : List String).any (fun w => containsSub w.data q) ||
    seqWS "downing".data "street".data q

/-- Model of `detectRegionsFromQuery` (line 220); the JS `Set` insertion order is
uk, usa, eu. -/
def detectRegionsFromQuery (query : Str) : List Str :=
  let q := query.map Char.toLower
  (if wordBoundaryTest q "uk".data || seqWS "united".data "kingdom".data q ||
      containsSub "british".data q || containsSub "england".data q ||
      containsSub "scotland".data q || containsSub "wales".data q ||
      seqWS "northern".data "ireland".data q then ["uk".data] else []) ++
  (if wordBoundaryTest q "usa".data || wordBoundaryTest q "us".data ||
      seqWS "united".data "states".data q ||
      containsSub "america".data q || containsSub "american".data q
    then ["usa".data] else []) ++
  (if wordBoundaryTest q "eu".data || containsSub "europe".data q ||
      containsSub "european".data q || seqWS "european".data "union".data q
    then ["eu".data] else [])

/-- One alternative of `(^|[_\-\s])(w1|w2|...)`: some listed word occurs at the
start or right after a separator. -/
def sepThenAny (ws : List Str) : Str → Bool
  | [] => false
  | c :: cs =>
    ((c = '_' || c = '-' || c.isWhitespace) && ws.any (fun w => List.isPrefixOf w cs)) ||
      sepThenAny ws cs

def grpMatch (ws : List Str) (g : Str) : Bool :=
  ws.any (fun w => List.isPrefixOf w g) || sepThenAny ws g

/-- Model of `inferRegionFromGroup` (line 208); the DOM read of the `feedGroup` select
value becomes the explicit argument `g`. -/
def inferRegionFromGroup (g : Str) : Option Str :=
  let gl := g.map Char.toLower
  if gl = [] then none
  else if grpMatch ((["uk", "brit", "eng", "wales", "scot"] : List String).map String.data) gl
    then some "uk".data
  else if grpMatch ((["us", "usa", "america", "states"] : List String).map String.data) gl
    then some "usa".data
  else if grpMatch ((["eu", "europe", "european"] : List String).map String.data) gl
    then some "eu".data
  else none

/-- Model of `detectRegionsFromContext` (line 229). -/
def detectRegionsFromContext (g : Str) (query : Str) : List Str :=
  let regions := detectRegionsFromQuery query
  if regions = [] then
    match inferRegionFromGroup g with
    | some r => [r]
    | none => []
  else regions

/-- Model of `defaultRegionAnchors` (line 246). -/
def defaultRegionAnchors (region : Str) : List Str :=
  if region = "uk".data then
    (["uk", "british", "england", "scotland", "wales", "northern ireland",
      "westminster", "downing street", "whitehall", "house of commons",
      "house of lords", "no 10", "number 10"] : List String).map String.data
  else if region = "usa".data then
    (["usa", "us", "american", "washington", "white house", "capitol hill",
      "senate", "congress"] : List String).map String.data
  else if region = "eu".data then
    (["eu", "europe", "european", "brussels", "strasbourg", "commission"] :
      List String).map String.data
  else []

/-- The `addTerm` closure of `expandQueryWithDomain` (line 266), acting on the
(phrases, tokens) state: trim; multi-word terms become phrases (case-insensitive
dedup), single words become tokens (case-insensitive dedup, stopword filter,
length ≥ 2). -/
def addTerm (st : List Str × List Str) (t : Str) : List Str × List Str :=
  let s := trim t
  if s = [] then st
  else if ' ' ∈ s then
    let low := s.map Char.toLower
    if st.1.any (fun ph => ph.map Char.toLower = low) then st
    else (st.1 ++ [s], st.2)
  else
    let low := s.map Char.toLower
    if st.2.any (fun tok => tok.map Char.toLower = low) || decide (low ∈ STOPWORDS) ||
        decide (low.length < 2) then st
    else (st.1, st.2 ++ [s])

/-- The `addFromRegions` closure (line 299): ingest the lists stored under each
target region, in region order. -/
def addFromRegions : List Str → List (Str × List Str) → List Str × List Str →
    List Str × List Str
  | [], _, st => st
  | r :: rs, m, st =>
    addFromRegions rs m
      (match assocGet m r with
       | some l => l.foldl addTerm st
       | none => st)

/-- Add a lowercased term to the insertion-ordered anchor set. -/
def addAnchor (acc : List Str) (t : Str) : List Str :=
  let low := t.map Char.toLower
  if low ∈ acc then acc else acc ++ [low]

/-- The anchor-token set construction (lines 309-315). -/
def buildAnchors (targetRegions : List Str) (p : PoliticsTerms) : List Str :=
  targetRegions.foldl
    (fun acc r =>
      let acc := (defaultRegionAnchors r).foldl addAnchor acc
      let acc := ((assocGet p.parties r).getD []).foldl addAnchor acc
      let acc := ((assocGet p.institutions r).getD []).foldl addAnchor acc
      ((assocGet p.people r).getD []).foldl addAnchor acc) []

/-- The `collectFromRegions` closure (line 318): raw names stored under the
given regions, concatenated. -/
def collectFromRegions (regions : List Str) (m : List (Str × List Str)) : List Str :=
  regions.foldl (fun acc r => acc ++ ((assocGet m r).getD [])) []

/-- All region keys present in the party/institution/people maps, in
`Object.keys` insertion order across the three maps (lines 291-295). -/
def allRegionsOf (p : PoliticsTerms) : List Str :=
  dedupFirst (p.parties.map (fun q => q.1) ++ p.institutions.map (fun q => q.1) ++
    p.people.map (fun q => q.1))

/-- The politics-triggered body of `expandQueryWithDomain` (lines 264-331). -/
def expandPolitics (p : PoliticsTerms) (group : Str) (qp : QueryParts)
    (query : Str) : QueryParts :=
  let regions := detectRegionsFromContext group query
  let allRegions := allRegionsOf p
  let targetRegions := if regions ≠ [] then regions else allRegions
  let otherRegions := allRegions.filter (fun r => ¬ r ∈ regions)
  let st := p.synonyms.foldl addTerm (qp.phrases, qp.tokens)
  let st := addFromRegions targetRegions p.parties st
  let st := addFromRegions targetRegions p.institutions st
  let st := addFromRegions targetRegions p.people st
  let anchors := buildAnchors targetRegions p
  let excludes := collectFromRegions otherRegions p.parties ++
    collectFromRegions otherRegions p.institutions ++
    collectFromRegions otherRegions p.people
  let st := p.related_terms.foldl addTerm st
  ⟨st.1, st.2, excludes, anchors⟩

/-- Model of `expandQueryWithDomain` (line 259).  The `domainTerms` global and the DOM
`feedGroup` value become the explicit arguments `dt` and `group`. -/
def expandQueryWithDomain (dt : Option DomainTerms) (group : Str)
    (qp : QueryParts) (query : Str) : QueryParts :=
  match dt with
  | none => qp
  | some d =>
    match d.politics with
    | some p =>
      if shouldUsePoliticsDomain query then expandPolitics p group qp query
      else ⟨qp.phrases, qp.tokens, [], []⟩
    | none => ⟨qp.phrases, qp.tokens, [], []⟩

/-- A fetched headline (§3 of the spec; produced by the fetch collaborator). -/
structure Headline where
  title : Str
  summary : Str
  source : Str
  link : Str
  deriving DecidableEq, Repr

/-- A scored search result of `searchHeadlines`. -/
structure ScoredCandidate where
  index : Nat
  score : Nat
  deriving DecidableEq, Repr

/-- Points from the phrase pass of `headlineSearchScore` (lines 671-676):
+8 for a title substring hit, +4 for a summary substring hit, per phrase. -/
def phrasePoints (title summary : Str) (phrases : List Str) : Nat :=
  (phrases.map (fun ph =>
    let p := trim (ph.map Char.toLower)
    (if containsSub p title then 8 else 0) + (if containsSub p summary then 4 else 0))).sum

/-- Did any phrase hit the title or the summary? -/
def phraseHitB (title summary : Str) (phrases : List Str) : Bool :=
  phrases.any (fun ph =>
    let p := trim (ph.map Char.toLower)
    containsSub p title || containsSub p summary)

/-- One token's title test (line 683): word-boundary regex, or (for tokens of
length ≥ 4) stemmed containment in the tokenized title. -/
def tokenInTitle (title : Str) (titleTokens : List Str) (t : Str) : Bool :=
  wordBoundaryTest title t || (decide (4 ≤ t.length) && tokensContainStem titleTokens t)

/-- One token's summary test (line 684). -/
def tokenInSummary (summary : Str) (summaryTokens : List Str) (t : Str) : Bool :=
  wordBoundaryTest summary t || (decide (4 ≤ t.length) && tokensContainStem summaryTokens t)

/-- Number of tokens hitting the title. -/
def titleTokenHits (title : Str) (tokens : List Str) : Nat :=
  tokens.countP (fun t => tokenInTitle title (tokensFromText title) t)

/-- Points from the token pass (lines 681-687): +2 per title hit, +1 per
summary hit. -/
def tokenPoints (title summary : Str) (tokens : List Str) : Nat :=
  (tokens.map (fun t =>
    (if tokenInTitle title (tokensFromText title) t then 2 else 0) +
      (if tokenInSummary summary (tokensFromText summary) t then 1 else 0))).sum

/-- The raw (pre-gate) score of `headlineSearchScore`: phrase points, token
points and the +2 all-tokens-in-title bonus (line 688). -/
def rawScore (h : Headline) (qp : QueryParts) : Nat :=
  let title := h.title.map Char.toLower
  let summary := h.summary.map Char.toLower
  phrasePoints title summary qp.phrases + tokenPoints title summary qp.tokens +
    (if qp.tokens.length ≤ titleTokenHits title qp.tokens ∧ 0 < qp.tokens.length
      then 2 else 0)

/-- The gate of `headlineSearchScore` (line 691): phrase hit, or ≥ 2 title
token hits, or raw score ≥ 5. -/
def scoreGate (h : Headline) (qp : QueryParts) : Bool :=
  phraseHitB (h.title.map Char.toLower) (h.summary.map Char.toLower) qp.phrases ||
    decide (2 ≤ titleTokenHits (h.title.map Char.toLower) qp.tokens) ||
    decide (5 ≤ rawScore h qp)

/-- Model of `headlineSearchScore` (line 662): the raw score if the gate passes,
otherwise 0. -/
def headlineSearchScore (h : Headline) (qp : QueryParts) : Nat :=
  if scoreGate h qp then rawScore h qp else 0

/-- The cross-region suppression applied by `searchHeadlines` (lines 703-718):
a positive score is forced to 0 when some exclude token stem-matches the
combined title+summary tokens and no anchor token does. -/
def suppressedScore (qp : QueryParts) (h : Headline) : Nat :=
  let s := headlineSearchScore h qp
  if 0 < s ∧ qp.excludeTokens ≠ [] then
    let combinedTokens := tokensFromText (h.title ++ ' ' :: h.summary)
    let hasAnchor := qp.anchorTokens.any
      (fun a => tokensContainStem combinedTokens (a.map Char.toLower))
    if (qp.excludeTokens.any
        (fun ex => tokensContainStem combinedTokens (ex.map Char.toLower))) && !hasAnchor
      then 0 else s
  else s

/-- The scoring loop of `searchHeadlines` (lines 700-720): index/score pairs of
the headlines with positive final score, in original order, starting at
index `i`. -/
def scoredFrom (qp : QueryParts) : Nat → List Headline → List ScoredCandidate
  | _, [] => []
  | i, h :: hs =>
    let s := suppressedScore qp h
    if 0 < s then ⟨i, s⟩ :: scoredFrom qp (i + 1) hs
    else scoredFrom qp (i + 1) hs

/-- Stable insertion for the descending sort
`scored.sort((a, b) => b.score - a.score)` (line 721): an element goes before
the first element whose score does not exceed it, so equal scores keep their
original order (JS `Array.prototype.sort` is stable). -/
def insertDesc (x : ScoredCandidate) : List ScoredCandidate → List ScoredCandidate
  | [] => [x]
  | y :: ys => if y.score ≤ x.score then x :: y :: ys else y :: insertDesc x ys

def sortByScoreDesc (l : List ScoredCandidate) : List ScoredCandidate :=
  l.foldr insertDesc []

/-- Model of `searchHeadlines` (line 695).  The `domainTerms` global and the DOM
`feedGroup` value become the arguments `dt` and `group`; the JS default
`limit = 100` is an explicit argument. -/
def searchHeadlines (dt : Option DomainTerms) (group : Str) (query : Str)
    (items : List Headline) (limit : Nat) : List ScoredCandidate :=
  let qp := expandQueryWithDomain dt group (parseQueryParts query) query
  if qp.phrases.isEmpty && qp.tokens.isEmpty then []
  else (sortByScoreDesc (scoredFrom qp 0 items)).take limit

/-- Drop one trailing slash, as in `normalizeUrl` (lines 580, 585). -/
def stripTrailingSlash (s : Str) : Str :=
  if s.getLast? = some '/' then s.dropLast else s

/-- Model of `normalizeUrl` (line 574).  Simplified model of the WHATWG `URL` branch:
a string containing `://` parses, and clearing `search`/`hash` keeps the part
before the first `?` or `#`; strings without `://` take the catch branch
(trim, strip trailing slash, lowercase).  Percent-encoding, punycode and
default-port normalization are not modelled; no claim depends on them. -/
def normalizeUrl (u : Str) : Str :=
  let t := trim u
  if containsSub "://".data t then
    (stripTrailingSlash (t.takeWhile (fun c => c ≠ '?' && c ≠ '#'))).map Char.toLower
  else (stripTrailingSlash t).map Char.toLower

/-- Model of `urlsEqual` (line 590). -/
def urlsEqual (a b : Str) : Bool := decide (normalizeUrl a = normalizeUrl b)

/-- A mention returned by the summarizer (§3 of the spec): an object with
optional `url` / `index` / `title` fields, a bare string, or a bare integer.
A JS object field that is absent or (for `index`) not an integer is `none`. -/
inductive Mention where
  | obj (url : Option Str) (index : Option Int) (title : Option Str)
  | str (s : Str)
  | int (i : Int)
  deriving DecidableEq, Repr

/-- The `m.url` rule of `autoSelectByMentions` (line 601): normalized-URL
match, skipped for a falsy (absent or empty) `url` field. -/
def resolveObjUrl (headlines : List Headline) (url : Option Str) : Option Nat :=
  match url with
  | some u => if u ≠ [] then headlines.findIdx? (fun h => urlsEqual h.link u) else none
  | none => none

/-- The `m.index` rule (line 604): an explicit in-range integer index. -/
def resolveObjIndex (headlines : List Headline) (index : Option Int) : Option Nat :=
  match index with
  | some n => if 0 ≤ n ∧ n < (headlines.length : Int) then some n.toNat else none
  | none => none

/-- The `m.title` rules (lines 607-613): case-insensitive exact title match,
then the weak substring fallback for mention titles of normalized length ≥ 8;
skipped for a falsy `title` field. -/
def resolveObjTitle (headlines : List Headline) (title : Option Str) : Option Nat :=
  match title with
  | some t =>
    if t ≠ [] then
      let tnorm := (trim t).map Char.toLower
      match headlines.findIdx? (fun h => (trim h.title).map Char.toLower = tnorm) with
      | some i => some i
      | none =>
        headlines.findIdx?
          (fun h => containsSub tnorm (h.title.map Char.toLower) && decide (8 ≤ tnorm.length))
    else none
  | none => none

/-- The per-mention resolution of `autoSelectByMentions` (lines 599-624),
returning the resolved headline index if any.  Object mentions try the url,
index, then title rules; bare strings starting with "http" use only the URL
match and other bare strings only the exact title match; bare integers only
the in-range index rule. -/
def resolveMention (headlines : List Headline) : Mention → Option Nat
  | .obj url index title =>
    match resolveObjUrl headlines url with
    | some i => some i
    | none =>
      match resolveObjIndex headlines index with
      | some i => some i
      | none => resolveObjTitle headlines title
  | .str s =>
    if List.isPrefixOf "http".data s then headlines.findIdx? (fun h => urlsEqual h.link s)
    else
      let tnorm := (trim s).map Char.toLower
      headlines.findIdx? (fun h => (trim h.title).map Char.toLower = tnorm)
  | .int i =>
    if 0 ≤ i ∧ i < (headlines.length : Int) then some i.toNat else none

/-- One iteration of the mention loop (lines 598-633): a resolved index is
selected unless already seen or outside the allowed set. -/
def selectStep (headlines : List Headline) (allowed : Option (List Nat))
    (seen : List Nat) (m : Mention) : List Nat :=
  match resolveMention headlines m with
  | some idx =>
    if ¬ idx ∈ seen ∧ (allowed = none ∨ ∃ a ∈ allowed, idx ∈ a) then seen ++ [idx]
    else seen
  | none => seen

/-- Model of `autoSelectByMentions` (line 594): the ordered set of selected indices
(the `seen` set; the JS function checks the corresponding checkbox and returns
`seen.size`).  The checkbox lookup is modelled as always succeeding.  The
`headlines` global and optional `allowedIdxs` are explicit arguments. -/
def autoSelectByMentions (headlines : List Headline) (mentions : List Mention)
    (allowed : Option (List Nat)) : List Nat :=
  mentions.foldl (selectStep headlines allowed) []

/-- A video source candidate (§3 of the spec). -/
structure VideoCandidate where
  title : Str
  srcUrl : Str
  pageUrl : Str
  sourceType : Str
  deriving DecidableEq, Repr

inductive Bucket where
  | platform
  | direct
  | stream
  | embed
  deriving DecidableEq, Repr

/-- Model of `videoTypeBucket` (line 40). -/
def videoTypeBucket (v : VideoCandidate) : Bucket :=
  let t := v.sourceType.map Char.toLower
  if t = "youtube".data ∨ t = "vimeo".data then .platform
  else if t = "mp4".data ∨ t = "webm".data then .direct
  else if t = "m3u8".data then .stream
  else if t = "embed".data then .embed
  else .embed

/-- The `rank` closure of the per-page dedup (lines 99-105). -/
def videoRank (v : VideoCandidate) : Nat :=
  match videoTypeBucket v with
  | .platform => 3
  | .direct => 3
  | .stream => 2
  | .embed => 1

/-- The dedup grouping key `v.pageUrl || v.srcUrl` (line 108). -/
def groupKey (v : VideoCandidate) : Str :=
  if v.pageUrl ≠ [] then v.pageUrl else v.srcUrl

/-- One step of the JS `Map` update `if (!cur || rank(v) > rank(cur))
best.set(key, v)` (line 110): replace in place when the key exists and the new
candidate ranks strictly higher, append otherwise. -/
def dedupInsert : List (Str × VideoCandidate) → Str → VideoCandidate →
    List (Str × VideoCandidate)
  | [], k, v => [(k, v)]
  | (k', cur) :: rest, k, v =>
    if k' = k then
      (k', if videoRank cur < videoRank v then v else cur) :: rest
    else (k', cur) :: dedupInsert rest k v

/-- The per-page dedup stage (lines 98-113): `Array.from(best.values())` in
key-insertion order. -/
def dedupPerPage (l : List VideoCandidate) : List VideoCandidate :=
  (l.foldl (fun m v => dedupInsert m (groupKey v) v) []).map (fun e => e.2)

/-- Simplified model of `new URL(u, location.href).hostname.toLowerCase()`
(lines 85-86): the part between `://` and the next `/ : ? #`.  Relative-URL
resolution against the page location is not modelled (such candidates yield
`''` in the JS catch as well as here); no claim depends on hostnames. -/
def afterScheme : Str → Str
  | [] => []
  | c :: cs => if List.isPrefixOf "://".data (c :: cs) then cs.drop 2 else afterScheme cs

def hostOf (u : Str) : Str :=
  if containsSub "://".data u then
    ((afterScheme u).takeWhile (fun c => c ≠ '/' && c ≠ ':' && c ≠ '?' && c ≠ '#')).map
      Char.toLower
  else []

/-- The keyword filter predicate (lines 81-88). -/
def kwPred (q : Str) (v : VideoCandidate) : Bool :=
  containsSub q (v.title.map Char.toLower) || containsSub q (v.srcUrl.map Char.toLower) ||
    containsSub q (v.pageUrl.map Char.toLower) || containsSub q (hostOf v.srcUrl) ||
    containsSub q (hostOf v.pageUrl)

/-- The type filter predicate (lines 61-68). -/
def typeFilterPred (typeVal : Str) (v : VideoCandidate) : Bool :=
  let b := videoTypeBucket v
  if typeVal = "platform".data then decide (b = .platform)
  else if typeVal = "direct".data then decide (b = .direct)
  else if typeVal = "stream".data then decide (b = .stream)
  else if typeVal = "embed".data then decide (b = .embed)
  else true

/-- The playable-only predicate (lines 73-76). -/
def playablePred (v : VideoCandidate) : Bool :=
  let b := videoTypeBucket v
  decide (b = .platform) || decide (b = .direct) || decide (b = .stream)

/-- The sort key `prio + '|' + title.toLowerCase()` (lines 116-120). -/
def bucketPrioChar (v : VideoCandidate) : Char :=
  match videoTypeBucket v with
  | .platform => '0'
  | .direct => '1'
  | .stream => '2'
  | .embed => '3'

def sortKeyV (v : VideoCandidate) : Str :=
  bucketPrioChar v :: '|' :: v.title.map Char.toLower

/-- Code-point lexicographic string order, the model of
`String.prototype.localeCompare` used by the final sort (line 121); it is a
total order, which is all the source relies on. -/
def lexLe : Str → Str → Bool
  | [], _ => true
  | _ :: _, [] => false
  | a :: as, b :: bs => decide (a < b) || (decide (a = b) && lexLe as bs)

/-- Stable insertion for the ascending final sort: an element goes before the
first element whose key is not smaller. -/
def insertAsc (x : VideoCandidate) : List VideoCandidate → List VideoCandidate
  | [] => [x]
  | y :: ys => if lexLe (sortKeyV x) (sortKeyV y) then x :: y :: ys else y :: insertAsc x ys

def sortVideos (l : List VideoCandidate) : List VideoCandidate :=
  l.foldr insertAsc []

/-- The UI filter configuration read from the DOM by `applyVideoFilters`
(lines 51-57, 92-93), made explicit: the checkbox states, the type select
value, the raw search box text, and the selected headline page URLs. -/
structure VideoFilterConfig where
  playableOnly : Bool
  uniquePerPage : Bool
  fromSelectedOnly : Bool
  typeVal : Str
  searchText : Str
  selectedUrls : List Str
  deriving DecidableEq, Repr

/-- A filter stage that runs only when its UI toggle is on. -/
def condFilter (b : Bool) (p : VideoCandidate → Bool) (l : List VideoCandidate) :
    List VideoCandidate :=
  if b then l.filter p else l

/-- The optional per-page dedup stage. -/
def condDedup (b : Bool) (l : List VideoCandidate) : List VideoCandidate :=
  if b then dedupPerPage l else l

/-- Model of `applyVideoFilters` (line 49): type filter, playable-only filter, keyword
filter, provenance filter, optional per-page dedup, final stable sort. -/
def applyVideoFilters (cfg : VideoFilterConfig) (all : List VideoCandidate) :
    List VideoCandidate :=
  let q := trim (cfg.searchText.map Char.toLower)
  sortVideos
    (condDedup cfg.uniquePerPage
      (condFilter cfg.fromSelectedOnly (fun v => decide (v.pageUrl ∈ cfg.selectedUrls))
        (condFilter (decide (q ≠ [])) (kwPred q)
          (condFilter cfg.playableOnly playablePred
            (condFilter (decide (cfg.typeVal ≠ "all".data)) (typeFilterPred cfg.typeVal)
              all)))))


/-! ## Claim C6: stem containment -/

/-- C6: `tokensContainStem tokens queryToken` is true iff some token's stem
equals the query stem, or one stem is a prefix of the other with length
difference ≤ 3 (candidate stem longer) resp. ≤ 2 (query stem longer); in
particular `tokensContainStem ["elections"] "election"` is true because the
suffix-stripped stems are equal. -/
theorem claim6_containsStem_iff :
    (∀ (tokens : List Str) (queryToken : Str),
        tokensContainStem tokens queryToken = true ↔
          ∃ t ∈ tokens,
            simpleStem queryToken = simpleStem t ∨
              (List.isPrefixOf (simpleStem queryToken) (simpleStem t) = true ∧
                (simpleStem t).length - (simpleStem queryToken).length ≤ 3) ∨
              (List.isPrefixOf (simpleStem t) (simpleStem queryToken) = true ∧
                (simpleStem queryToken).length - (simpleStem t).length ≤ 2)) ∧
    tokensContainStem ["elections".data] "election".data = true ∧
    simpleStem "elections".data = simpleStem "election".data := by
  refine ⟨?_, by decide, by decide⟩
  intro tokens q
  simp only [tokensContainStem, List.any_eq_true, Bool.or_eq_true, Bool.and_eq_true,
    decide_eq_true_eq]
  constructor
  · rintro ⟨t, ht, (h | h) | h⟩
    · exact ⟨t, ht, Or.inl h.symm⟩
    · exact ⟨t, ht, Or.inr (Or.inl h)⟩
    · exact ⟨t, ht, Or.inr (Or.inr h)⟩
  · rintro ⟨t, ht, h | h | h⟩
    · exact ⟨t, ht, Or.inl (Or.inl h.symm)⟩
    · exact ⟨t, ht, Or.inl (Or.inr h)⟩
    · exact ⟨t, ht, Or.inr h⟩

/-! ## Claim C2: the scorer's gate -/

/-- C2: a candidate passes the gate only with a phrase hit, or ≥ 2 title token
hits, or raw score ≥ 5, and otherwise the returned score is 0; for the
single-token query "election" against the title "UK Prime Minister announces
election" (summary without the token) the raw score is 4 (2 + 2 bonus),
`titleTokenHits` is 1, and the returned score is 0. -/
theorem claim2_scorer_gate :
    (∀ (h : Headline) (qp : QueryParts),
        phraseHitB (h.title.map Char.toLower) (h.summary.map Char.toLower) qp.phrases = false →
        titleTokenHits (h.title.map Char.toLower) qp.tokens < 2 →
        rawScore h qp < 5 →
        headlineSearchScore h qp = 0) ∧
    (∀ (h : Headline) (qp : QueryParts),
        headlineSearchScore h qp ≠ 0 →
          (phraseHitB (h.title.map Char.toLower) (h.summary.map Char.toLower) qp.phrases = true ∨
            2 ≤ titleTokenHits (h.title.map Char.toLower) qp.tokens ∨
            5 ≤ rawScore h qp) ∧
          headlineSearchScore h qp = rawScore h qp) ∧
    rawScore ⟨"UK Prime Minister announces election".data, [], [], []⟩
        ⟨[], ["election".data], [], []⟩ = 4 ∧
    titleTokenHits ("UK Prime Minister announces election".data.map Char.toLower)
        ["election".data] = 1 ∧
    headlineSearchScore ⟨"UK Prime Minister announces election".data, [], [], []⟩
        ⟨[], ["election".data], [], []⟩ = 0 := by
  refine ⟨?_, ?_, by decide, by decide, by decide⟩
  · intro h qp h1 h2 h3
    unfold headlineSearchScore scoreGate
    rw [if_neg]
    simp only [h1, Bool.false_or, Bool.or_eq_true, decide_eq_true_eq]
    omega
  · intro h qp hne
    unfold headlineSearchScore at hne ⊢
    by_cases hg : scoreGate h qp = true
    · refine ⟨?_, by rw [if_pos hg]⟩
      unfold scoreGate at hg
      simp only [Bool.or_eq_true, decide_eq_true_eq] at hg
      tauto
    · rw [Bool.not_eq_true] at hg
      rw [hg] at hne
      simp at hne

/-- Witness for `claim2_scorer_gate` at the boundary case of the claim. -/
theorem claim2_scorer_gate_witness :
    headlineSearchScore ⟨"UK Prime Minister announces election".data, [], [], []⟩
      ⟨[], ["election".data], [], []⟩ = 0 :=
  claim2_scorer_gate.1 ⟨"UK Prime Minister announces election".data, [], [], []⟩
    ⟨[], ["election".data], [], []⟩ (by decide) (by decide) (by decide)

/-! ## Claim C4: no-op conditions of the expander -/

/-- C4 counterexample: with `domainTerms` present (politics absent, so the
trigger fails) and an input whose `anchorTokens` is non-empty, the output is
not equal to the input: the expander resets `excludeTokens`/`anchorTokens` to
`[]` instead of returning its input unchanged. -/
theorem claim4_cex :
    expandQueryWithDomain (some ⟨none⟩) [] ⟨[], [], [], ["x".data]⟩ "weather".data ≠
      ⟨[], [], [], ["x".data]⟩ := by decide

/-- C4 (amended): with `domainTerms` absent the input is returned unchanged;
with `domainTerms` present but the politics trigger failing (no politics
section, or the trigger regex failing on the raw query), the output keeps the
input's phrases and tokens and has empty `excludeTokens`/`anchorTokens` — so
it equals the input exactly when the input's `excludeTokens` and
`anchorTokens` are empty, as they are for every parser-produced input. -/
theorem claim4_noop :
    (∀ (group : Str) (qp : QueryParts) (query : Str),
        expandQueryWithDomain none group qp query = qp) ∧
    (∀ (d : DomainTerms) (group : Str) (qp : QueryParts) (query : Str),
        d.politics = none ∨ shouldUsePoliticsDomain query = false →
        expandQueryWithDomain (some d) group qp query = ⟨qp.phrases, qp.tokens, [], []⟩) ∧
    (∀ (d : DomainTerms) (group : Str) (qp : QueryParts) (query : Str),
        d.politics = none ∨ shouldUsePoliticsDomain query = false →
        qp.excludeTokens = [] → qp.anchorTokens = [] →
        expandQueryWithDomain (some d) group qp query = qp) ∧
    (∀ (q : Str), (parseQueryParts q).excludeTokens = [] ∧ (parseQueryParts q).anchorTokens = []) := by
  have key : ∀ (d : DomainTerms) (group : Str) (qp : QueryParts) (query : Str),
      d.politics = none ∨ shouldUsePoliticsDomain query = false →
      expandQueryWithDomain (some d) group qp query = ⟨qp.phrases, qp.tokens, [], []⟩ := by
    intro d group qp query hcond
    rcases hp : d.politics with _ | p
    · simp [expandQueryWithDomain, hp]
    · rcases hcond with hcond | hcond
      · rw [hp] at hcond; cases hcond
      · simp [expandQueryWithDomain, hp, hcond]
  refine ⟨fun _ _ _ => rfl, key, ?_, ?_⟩
  · intro d group qp query hcond he ha
    rw [key d group qp query hcond]
    cases qp
    simp_all
  · intro q
    unfold parseQueryParts
    by_cases hq : q = [] <;> simp [hq]

/-- Witness for `claim4_noop`: a parser-shaped input is returned unchanged
when the domain terms carry no politics section. -/
theorem claim4_noop_witness :
    expandQueryWithDomain (some ⟨none⟩) [] ⟨["a b".data], ["cat".data], [], []⟩
        "weather".data = ⟨["a b".data], ["cat".data], [], []⟩ :=
  claim4_noop.2.2.1 ⟨none⟩ [] ⟨["a b".data], ["cat".data], [], []⟩ "weather".data
    (Or.inl rfl) rfl rfl

/-! ## Claim C1: exclude tokens and region subtraction -/

/-- C1 counterexample: politics domain triggered by the query "election", no
region detected from the query or the group context, yet `excludeTokens` is
not empty — the source subtracts the detected regions (here none) from the
region keys, not `targetRegions`, so every region's names are collected. -/
theorem claim1_cex :
    detectRegionsFromContext [] "election".data = [] ∧
    (expandQueryWithDomain
        (some ⟨some ⟨[], [], [("usa".data, ["Republican".data])], [], []⟩⟩)
        [] ⟨[], ["election".data], [], []⟩ "election".data).excludeTokens =
      ["Republican".data] ∧
    (expandQueryWithDomain
        (some ⟨some ⟨[], [], [("usa".data, ["Republican".data])], [], []⟩⟩)
        [] ⟨[], ["election".data], [], []⟩ "election".data).excludeTokens ≠ [] := by
  refine ⟨by decide, by decide, by decide⟩

/-- C1 (amended): with the politics domain triggered, `excludeTokens` is the
concatenation of the party, institution and people lists of
`otherRegions` = all region keys minus the *detected* regions (not minus
`targetRegions`); in particular, when no region is detected, `otherRegions`
is *all* regions and `excludeTokens` collects every region's names. -/
theorem claim1_excludes :
    ∀ (p : PoliticsTerms) (group : Str) (qp : QueryParts) (query : Str),
      shouldUsePoliticsDomain query = true →
      (expandQueryWithDomain (some ⟨some p⟩) group qp query).excludeTokens =
        (let regions := detectRegionsFromContext group query
         let otherRegions := (allRegionsOf p).filter (fun r => ¬ r ∈ regions)
         collectFromRegions otherRegions p.parties ++
           collectFromRegions otherRegions p.institutions ++
           collectFromRegions otherRegions p.people) := by
  intro p group qp query htrig
  simp only [expandQueryWithDomain, htrig, if_true]
  rfl

/-- Witness for `claim1_excludes` at the counterexample input. -/
theorem claim1_excludes_witness :
    (expandQueryWithDomain
        (some ⟨some ⟨[], [], [("usa".data, ["Republican".data])], [], []⟩⟩)
        [] ⟨[], ["election".data], [], []⟩ "election".data).excludeTokens =
      ["Republican".data] :=
  (claim1_excludes ⟨[], [], [("usa".data, ["Republican".data])], [], []⟩ []
      ⟨[], ["election".data], [], []⟩ "election".data (by decide)).trans (by decide)

/-! ## Claim C7: term ingestion order -/

/-- The ingestion order asserted by the C7 spec sentence — synonyms *and*
related_terms first, then the region-restricted party/institution/people
lists.  Written from the claim's words, to be compared with the source
order of `expandPolitics`. -/
def expandPoliticsClaimOrder (p : PoliticsTerms) (group : Str) (qp : QueryParts)
    (query : Str) : QueryParts :=
  let regions := detectRegionsFromContext group query
  let allRegions := allRegionsOf p
  let targetRegions := if regions ≠ [] then regions else allRegions
  let otherRegions := allRegions.filter (fun r => ¬ r ∈ regions)
  let st := p.synonyms.foldl addTerm (qp.phrases, qp.tokens)
  let st := p.related_terms.foldl addTerm st
  let st := addFromRegions targetRegions p.parties st
  let st := addFromRegions targetRegions p.institutions st
  let st := addFromRegions targetRegions p.people st
  let anchors := buildAnchors targetRegions p
  let excludes := collectFromRegions otherRegions p.parties ++
    collectFromRegions otherRegions p.institutions ++
    collectFromRegions otherRegions p.people
  ⟨st.1, st.2, excludes, anchors⟩

/-- C7 counterexample: with related term "Zeta" and uk party "Alpha", the
source ingests the region lists *before* `related_terms`, producing tokens
[election, Alpha, Zeta]; the claimed order (synonyms and related_terms first)
would produce [election, Zeta, Alpha]. -/
theorem claim7_cex :
    (expandQueryWithDomain
        (some ⟨some ⟨[], ["Zeta".data], [("uk".data, ["Alpha".data])], [], []⟩⟩)
        [] ⟨[], ["election".data], [], []⟩ "election".data).tokens =
      ["election".data, "Alpha".data, "Zeta".data] ∧
    (expandPoliticsClaimOrder ⟨[], ["Zeta".data], [("uk".data, ["Alpha".data])], [], []⟩
        [] ⟨[], ["election".data], [], []⟩ "election".data).tokens =
      ["election".data, "Zeta".data, "Alpha".data] ∧
    (expandQueryWithDomain
        (some ⟨some ⟨[], ["Zeta".data], [("uk".data, ["Alpha".data])], [], []⟩⟩)
        [] ⟨[], ["election".data], [], []⟩ "election".data).tokens ≠
      (expandPoliticsClaimOrder ⟨[], ["Zeta".data], [("uk".data, ["Alpha".data])], [], []⟩
        [] ⟨[], ["election".data], [], []⟩ "election".data).tokens :=
  ⟨by decide, by decide, by decide⟩

/-- The `targetRegions` list as computed by the expander: the detected regions if any,
else all region keys of the domain maps. -/
def targetRegionsOf (p : PoliticsTerms) (group query : Str) : List Str :=
  let regions := detectRegionsFromContext group query
  if regions ≠ [] then regions else allRegionsOf p

/-- The region-restricted terms of a map, in region order. -/
def regionTermsList (targetRegions : List Str) (m : List (Str × List Str)) : List Str :=
  (targetRegions.map (fun r => (assocGet m r).getD [])).flatten

theorem addFromRegions_eq_foldl (rs : List Str) (m : List (Str × List Str)) :
    ∀ st, addFromRegions rs m st = (regionTermsList rs m).foldl addTerm st := by
  induction rs with
  | nil => intro st; rfl
  | cons r rs ih =>
    intro st
    rcases hg : assocGet m r with _ | l
    · simp [addFromRegions, regionTermsList, hg, ih]
    · simp [addFromRegions, regionTermsList, hg, ih, List.foldl_append]

/-- C7 (amended): with the politics domain triggered, the phrases and tokens
of the result are obtained by folding `addTerm` (trim; multi-word terms become
case-insensitively deduplicated phrases; single words become
case-insensitively deduplicated tokens, excluded if stopwords or shorter than
2 characters) over, in order: synonyms, then the party/institution/people
lists restricted to `targetRegions`, then `related_terms` (synonyms and
related_terms regardless of region, but related_terms *last*, not before the
region lists). -/
theorem claim7_ingestion :
    ∀ (p : PoliticsTerms) (group : Str) (qp : QueryParts) (query : Str),
      shouldUsePoliticsDomain query = true →
      (expandQueryWithDomain (some ⟨some p⟩) group qp query).phrases =
        ((p.synonyms ++ regionTermsList (targetRegionsOf p group query) p.parties ++
            regionTermsList (targetRegionsOf p group query) p.institutions ++
            regionTermsList (targetRegionsOf p group query) p.people ++
            p.related_terms).foldl addTerm (qp.phrases, qp.tokens)).1 ∧
      (expandQueryWithDomain (some ⟨some p⟩) group qp query).tokens =
        ((p.synonyms ++ regionTermsList (targetRegionsOf p group query) p.parties ++
            regionTermsList (targetRegionsOf p group query) p.institutions ++
            regionTermsList (targetRegionsOf p group query) p.people ++
            p.related_terms).foldl addTerm (qp.phrases, qp.tokens)).2 := by
  intro p group qp query htrig
  simp only [expandQueryWithDomain, htrig, if_true, expandPolitics, targetRegionsOf,
    addFromRegions_eq_foldl, List.foldl_append]
  exact ⟨trivial, trivial⟩

/-- Witness for `claim7_ingestion` at the counterexample input. -/
theorem claim7_ingestion_witness :
    (expandQueryWithDomain
        (some ⟨some ⟨[], ["Zeta".data], [("uk".data, ["Alpha".data])], [], []⟩⟩)
        [] ⟨[], ["election".data], [], []⟩ "election".data).tokens =
      ["election".data, "Alpha".data, "Zeta".data] :=
  (claim7_ingestion ⟨[], ["Zeta".data], [("uk".data, ["Alpha".data])], [], []⟩ []
      ⟨[], ["election".data], [], []⟩ "election".data (by decide)).2.trans (by decide)

/-! ## Claim C3: mention resolution -/

theorem findIdx?_lt_length {α : Type} (p : α → Bool) :
    ∀ (l : List α) (s i : Nat), List.findIdx? p l s = some i → i < s + l.length := by
  intro l
  induction l with
  | nil => intro s i h; simp [List.findIdx?] at h
  | cons a l ih =>
    intro s i h
    rw [List.findIdx?] at h
    by_cases hp : p a
    · rw [if_pos hp] at h
      cases h
      simp
    · rw [if_neg hp] at h
      have := ih (s + 1) i h
      simp only [List.length_cons]
      omega

theorem resolveMention_lt (headlines : List Headline) (m : Mention) (i : Nat) :
    resolveMention headlines m = some i → i < headlines.length := by
  have hf : ∀ (p : Headline → Bool) (j : Nat),
      headlines.findIdx? p = some j → j < headlines.length := by
    intro p j hj
    have := findIdx?_lt_length p headlines 0 j hj
    omega
  have hurl : ∀ url j, resolveObjUrl headlines url = some j → j < headlines.length := by
    intro url j h
    rcases url with _ | u
    · simp [resolveObjUrl] at h
    · rw [resolveObjUrl] at h
      by_cases hu : u ≠ []
      · rw [if_pos hu] at h; exact hf _ _ h
      · rw [if_neg hu] at h; cases h
  have hidx : ∀ index j, resolveObjIndex headlines index = some j → j < headlines.length := by
    intro index j h
    rcases index with _ | n
    · simp [resolveObjIndex] at h
    · rw [resolveObjIndex] at h
      by_cases hn : 0 ≤ n ∧ n < (headlines.length : Int)
      · rw [if_pos hn] at h
        cases h
        omega
      · rw [if_neg hn] at h; cases h
  have htitle : ∀ title j, resolveObjTitle headlines title = some j → j < headlines.length := by
    intro title j h
    rcases title with _ | t
    · simp [resolveObjTitle] at h
    · rw [resolveObjTitle] at h
      by_cases ht : t ≠ []
      · rw [if_pos ht] at h
        rcases he : headlines.findIdx?
            (fun hh => (trim hh.title).map Char.toLower = (trim t).map Char.toLower) with _ | k
        · simp only [he] at h
          exact hf _ _ h
        · simp only [he] at h
          cases h
          exact hf _ _ he
      · rw [if_neg ht] at h; cases h
  cases m with
  | obj url index title =>
    intro h
    rw [resolveMention] at h
    rcases hu : resolveObjUrl headlines url with _ | k
    · rw [hu] at h
      rcases hn : resolveObjIndex headlines index with _ | k'
      · rw [hn] at h
        exact htitle _ _ h
      · rw [hn] at h; cases h; exact hidx _ _ hn
    · rw [hu] at h; cases h; exact hurl _ _ hu
  | str s =>
    intro h
    rw [resolveMention] at h
    by_cases hs : List.isPrefixOf "http".data s = true
    · rw [if_pos hs] at h; exact hf _ _ h
    · rw [if_neg hs] at h; exact hf _ _ h
  | int n =>
    intro h
    rw [resolveMention] at h
    by_cases hn : 0 ≤ n ∧ n < (headlines.length : Int)
    · rw [if_pos hn] at h
      cases h
      omega
    · rw [if_neg hn] at h; cases h

theorem autoSelect_loop_inv (headlines : List Headline) (allowed : Option (List Nat)) :
    ∀ (ms : List Mention) (seen : List Nat), seen.Nodup →
      (ms.foldl (selectStep headlines allowed) seen).Nodup ∧
      (∀ i ∈ ms.foldl (selectStep headlines allowed) seen,
        i ∈ seen ∨
          ((∀ A, allowed = some A → i ∈ A) ∧
            ∃ m ∈ ms, resolveMention headlines m = some i)) := by
  intro ms
  induction ms with
  | nil =>
    intro seen hnd
    exact ⟨hnd, fun i hi => Or.inl hi⟩
  | cons m ms ih =>
    intro seen hnd
    rw [List.foldl_cons]
    have hstep : (selectStep headlines allowed seen m).Nodup ∧
        (∀ i ∈ selectStep headlines allowed seen m,
          i ∈ seen ∨
            ((∀ A, allowed = some A → i ∈ A) ∧ resolveMention headlines m = some i)) := by
      rcases hr : resolveMention headlines m with _ | idx
      · have hsel : selectStep headlines allowed seen m = seen := by
          simp only [selectStep, hr]
        rw [hsel]
        exact ⟨hnd, fun i hi => Or.inl hi⟩
      · by_cases hc : ¬ idx ∈ seen ∧ (allowed = none ∨ ∃ a ∈ allowed, idx ∈ a)
        · have hsel : selectStep headlines allowed seen m = seen ++ [idx] := by
            simp only [selectStep, hr]
            rw [if_pos hc]
          rw [hsel]
          constructor
          · simp [List.nodup_append, hnd, hc.1]
          · intro i hi
            rcases List.mem_append.mp hi with hi | hi
            · exact Or.inl hi
            · simp only [List.mem_singleton] at hi
              subst hi
              refine Or.inr ⟨?_, rfl⟩
              intro A hA
              rcases hc.2 with h0 | ⟨a, ha, hmem⟩
              · rw [hA] at h0; cases h0
              · rw [hA] at ha
                cases ha
                exact hmem
        · have hsel : selectStep headlines allowed seen m = seen := by
            simp only [selectStep, hr]
            rw [if_neg hc]
          rw [hsel]
          exact ⟨hnd, fun i hi => Or.inl hi⟩
    obtain ⟨hnd', hmem'⟩ := hstep
    obtain ⟨hnd'', hmem''⟩ := ih (selectStep headlines allowed seen m) hnd'
    refine ⟨hnd'', ?_⟩
    intro i hi
    rcases hmem'' i hi with hi' | ⟨hA, m', hm', hres⟩
    · rcases hmem' i hi' with hi'' | ⟨hA, hres⟩
      · exact Or.inl hi''
      · exact Or.inr ⟨hA, m, List.mem_cons_self m ms, hres⟩
    · exact Or.inr ⟨hA, m', List.mem_cons_of_mem m hm', hres⟩

/-- C3 counterexample: the bare-string mention "Politics Today" satisfies the
claimed fallback rule (d) — it is a case-insensitive substring of the headline
title and its normalized length is ≥ 8 — yet `autoSelectByMentions` selects
nothing: bare title strings get only the exact-title rule in the source. -/
theorem claim3_cex :
    autoSelectByMentions
        [⟨"International Politics Today".data, [], [], "http://a.com/x".data⟩]
        [.str "Politics Today".data] none = [] ∧
    containsSub ((trim "Politics Today".data).map Char.toLower)
        ("International Politics Today".data.map Char.toLower) = true ∧
    8 ≤ ((trim "Politics Today".data).map Char.toLower).length :=
  ⟨by decide, by decide, by decide⟩

/-- C3 (amended): every selected index is in range and comes from
`resolveMention` of some mention — where object mentions try normalized-URL
match, then in-range integer index, then exact title match, then the substring
fallback (mention's normalized title contained in the headline title, mention
title length ≥ 8); bare "http…" strings use only the URL match, other bare
strings only the exact title match (no substring fallback), bare integers only
the in-range index rule.  Unresolved mentions are skipped, no index is
selected twice, and with `allowedIdxs` supplied every selection lies in it. -/
theorem claim3_resolution :
    ∀ (headlines : List Headline) (mentions : List Mention) (allowed : Option (List Nat)),
      (autoSelectByMentions headlines mentions allowed).Nodup ∧
      (∀ A, allowed = some A → ∀ i ∈ autoSelectByMentions headlines mentions allowed, i ∈ A) ∧
      (∀ i ∈ autoSelectByMentions headlines mentions allowed,
        i < headlines.length ∧ ∃ m ∈ mentions, resolveMention headlines m = some i) := by
  intro headlines mentions allowed
  obtain ⟨hnd, hmem⟩ := autoSelect_loop_inv headlines allowed mentions [] (List.nodup_nil)
  refine ⟨hnd, ?_, ?_⟩
  · intro A hA i hi
    rcases hmem i hi with h0 | ⟨hAok, _⟩
    · cases h0
    · exact hAok A hA
  · intro i hi
    rcases hmem i hi with h0 | ⟨_, m, hm, hres⟩
    · cases h0
    · exact ⟨resolveMention_lt headlines m i hres, m, hm, hres⟩

/-- Witness for `claim3_resolution`: a concrete bare-integer mention resolves
to an in-range index. -/
theorem claim3_resolution_witness :
    0 < ([⟨"T".data, [], [], "http://a.com".data⟩] : List Headline).length :=
  ((claim3_resolution [⟨"T".data, [], [], "http://a.com".data⟩] [.int 0] none).2.2 0
    (by decide)).1

/-! ## Claims C5 and C10: the search pipeline -/

/-- Strict descending order with original (index) order on ties: the unique
ordering a stable descending-by-score sort produces on distinct indices. -/
def lexAfter (a b : ScoredCandidate) : Prop :=
  b.score < a.score ∨ (a.score = b.score ∧ a.index < b.index)

theorem insertDesc_perm (x : ScoredCandidate) :
    ∀ l, (insertDesc x l).Perm (x :: l) := by
  intro l
  induction l with
  | nil => exact List.Perm.refl _
  | cons y ys ih =>
    rw [insertDesc]
    by_cases h : y.score ≤ x.score
    · rw [if_pos h]
    · rw [if_neg h]
      exact (List.Perm.cons y ih).trans (List.Perm.swap x y ys)

theorem sortByScoreDesc_perm : ∀ l, (sortByScoreDesc l).Perm l := by
  intro l
  induction l with
  | nil => exact List.Perm.refl _
  | cons x xs ih =>
    show (insertDesc x (sortByScoreDesc xs)).Perm (x :: xs)
    exact (insertDesc_perm x (sortByScoreDesc xs)).trans (List.Perm.cons x ih)

theorem insertDesc_pairwise (x : ScoredCandidate) :
    ∀ l, l.Pairwise lexAfter → (∀ y ∈ l, x.index < y.index) →
      (insertDesc x l).Pairwise lexAfter := by
  intro l
  induction l with
  | nil => intro _ _; simp [insertDesc]
  | cons y ys ih =>
    intro hp hidx
    rw [insertDesc]
    by_cases h : y.score ≤ x.score
    · rw [if_pos h]
      refine List.Pairwise.cons ?_ hp
      intro z hz
      rcases List.mem_cons.mp hz with rfl | hz'
      · rcases eq_or_lt_of_le h with heq | hlt
        · exact Or.inr ⟨heq.symm, hidx z (List.mem_cons_self z ys)⟩
        · exact Or.inl hlt
      · have hyz := (List.pairwise_cons.mp hp).1 z hz'
        have hz_le : z.score ≤ x.score := by
          rcases hyz with h1 | ⟨h1, _⟩ <;> omega
        rcases eq_or_lt_of_le hz_le with heq | hlt
        · exact Or.inr ⟨heq.symm, hidx z (List.mem_cons_of_mem y hz')⟩
        · exact Or.inl hlt
    · rw [if_neg h]
      obtain ⟨hy, hys⟩ := List.pairwise_cons.mp hp
      refine List.Pairwise.cons ?_ (ih hys (fun z hz => hidx z (List.mem_cons_of_mem y hz)))
      intro z hz
      have hz' : z ∈ x :: ys := ((insertDesc_perm x ys).mem_iff).mp hz
      rcases List.mem_cons.mp hz' with rfl | hz''
      · exact Or.inl (by omega)
      · exact hy z hz''

theorem sortByScoreDesc_pairwise :
    ∀ l, l.Pairwise (fun a b => a.index < b.index) →
      (sortByScoreDesc l).Pairwise lexAfter := by
  intro l
  induction l with
  | nil => intro _; simp [sortByScoreDesc]
  | cons x xs ih =>
    intro hp
    obtain ⟨hx, hxs⟩ := List.pairwise_cons.mp hp
    show (insertDesc x (sortByScoreDesc xs)).Pairwise lexAfter
    refine insertDesc_pairwise x _ (ih hxs) ?_
    intro y hy
    exact hx y (((sortByScoreDesc_perm xs).mem_iff).mp hy)

theorem scoredFrom_spec (qp : QueryParts) :
    ∀ (items : List Headline) (i : Nat) (c : ScoredCandidate),
      c ∈ scoredFrom qp i items →
        i ≤ c.index ∧ 0 < c.score ∧ ∃ h ∈ items, c.score = suppressedScore qp h := by
  intro items
  induction items with
  | nil => intro i c hc; simp [scoredFrom] at hc
  | cons h hs ih =>
    intro i c hc
    simp only [scoredFrom] at hc
    by_cases hpos : 0 < suppressedScore qp h
    · rw [if_pos hpos] at hc
      rcases List.mem_cons.mp hc with rfl | hc'
      · exact ⟨le_refl _, hpos, h, List.mem_cons_self h hs, rfl⟩
      · obtain ⟨hle, hp, h', hm, hsc⟩ := ih (i + 1) c hc'
        exact ⟨by omega, hp, h', List.mem_cons_of_mem h hm, hsc⟩
    · rw [if_neg hpos] at hc
      obtain ⟨hle, hp, h', hm, hsc⟩ := ih (i + 1) c hc
      exact ⟨by omega, hp, h', List.mem_cons_of_mem h hm, hsc⟩

theorem scoredFrom_pairwise (qp : QueryParts) :
    ∀ (items : List Headline) (i : Nat),
      (scoredFrom qp i items).Pairwise (fun a b => a.index < b.index) := by
  intro items
  induction items with
  | nil => intro i; simp [scoredFrom]
  | cons h hs ih =>
    intro i
    simp only [scoredFrom]
    by_cases hpos : 0 < suppressedScore qp h
    · rw [if_pos hpos]
      refine List.Pairwise.cons ?_ (ih (i + 1))
      intro c hc
      have := (scoredFrom_spec qp hs (i + 1) c hc).1
      show i < c.index
      omega
    · rw [if_neg hpos]
      exact ih (i + 1)

theorem suppressedScore_empty (qp : QueryParts) (h : Headline)
    (hp : qp.phrases = []) (ht : qp.tokens = []) : suppressedScore qp h = 0 := by
  have hraw : rawScore h qp = 0 := by
    simp [rawScore, phrasePoints, tokenPoints, hp, ht]
  have hgate : scoreGate h qp = false := by
    simp [scoreGate, phraseHitB, titleTokenHits, hp, ht, hraw]
  have hs : headlineSearchScore h qp = 0 := by
    simp [headlineSearchScore, hgate]
  simp [suppressedScore, hs]

theorem scoredFrom_empty (qp : QueryParts) (hp : qp.phrases = []) (ht : qp.tokens = []) :
    ∀ (items : List Headline) (i : Nat), scoredFrom qp i items = [] := by
  intro items
  induction items with
  | nil => intro i; rfl
  | cons h hs ih =>
    intro i
    simp only [scoredFrom, suppressedScore_empty qp h hp ht]
    simpa using ih (i + 1)

/-- C5: `searchHeadlines` returns exactly the positively scored candidates
(in the sense of the post-suppression score of the expanded query), sorted in
non-increasing score order with equal scores kept in original headline order
(equivalently: sorted by the strict order `lexAfter`, since candidate indices
are strictly increasing), truncated to at most `limit` elements. -/
theorem claim5_search_pipeline :
    ∀ (dt : Option DomainTerms) (group query : Str) (items : List Headline) (limit : Nat),
      ∃ r' : List ScoredCandidate, searchHeadlines dt group query items limit = r'.take limit ∧
        r'.Perm (scoredFrom (expandQueryWithDomain dt group (parseQueryParts query) query)
          0 items) ∧
        r'.Pairwise lexAfter := by
  intro dt group query items limit
  simp only [searchHeadlines]
  by_cases hg : ((expandQueryWithDomain dt group (parseQueryParts query) query).phrases.isEmpty &&
      (expandQueryWithDomain dt group (parseQueryParts query) query).tokens.isEmpty) = true
  · refine ⟨[], ?_, ?_, List.Pairwise.nil⟩
    · rw [if_pos hg]
      simp
    · rw [Bool.and_eq_true, List.isEmpty_iff, List.isEmpty_iff] at hg
      rw [scoredFrom_empty _ hg.1 hg.2]
  · refine ⟨sortByScoreDesc (scoredFrom _ 0 items), ?_, sortByScoreDesc_perm _, ?_⟩
    · rw [if_neg hg]
    · exact sortByScoreDesc_pairwise _ (scoredFrom_pairwise _ items 0)

theorem phrasePoints_ge (title summary : Str) :
    ∀ phrases, phraseHitB title summary phrases = true →
      4 ≤ phrasePoints title summary phrases := by
  intro phrases
  induction phrases with
  | nil => intro h; simp [phraseHitB] at h
  | cons ph ps ih =>
    intro h
    simp only [phraseHitB, List.any_cons, Bool.or_eq_true] at h
    simp only [phrasePoints, List.map_cons, List.sum_cons]
    rcases h with h | h
    · by_cases h1 : containsSub (trim (ph.map Char.toLower)) title = true
      · rw [if_pos h1]; omega
      · rw [if_neg h1]
        rcases h with h | h
        · exact absurd h h1
        · rw [if_pos h]; omega
    · have := ih (by simpa [phraseHitB] using h)
      simp only [phrasePoints] at this
      omega

theorem tokenPoints_ge_hits (title summary : Str) :
    ∀ tokens, 2 * titleTokenHits title tokens ≤ tokenPoints title summary tokens := by
  intro tokens
  induction tokens with
  | nil => simp [titleTokenHits, tokenPoints]
  | cons t ts ih =>
    simp only [titleTokenHits, tokenPoints, List.countP_cons, List.map_cons,
      List.sum_cons] at ih ⊢
    by_cases h1 : tokenInTitle title (tokensFromText title) t = true
    · rw [if_pos h1, if_pos h1]
      omega
    · rw [if_neg h1, if_neg h1]
      omega

theorem rawScore_ge_of_gate (h : Headline) (qp : QueryParts) :
    scoreGate h qp = true → 4 ≤ rawScore h qp := by
  intro hg
  simp only [scoreGate, Bool.or_eq_true, decide_eq_true_eq] at hg
  rcases hg with (hph | hhits) | hraw
  · have h4 := phrasePoints_ge _ _ qp.phrases hph
    simp only [rawScore]
    omega
  · have h4 := tokenPoints_ge_hits (h.title.map Char.toLower) (h.summary.map Char.toLower)
      qp.tokens
    simp only [rawScore]
    omega
  · omega

theorem headlineSearchScore_ge (h : Headline) (qp : QueryParts) :
    headlineSearchScore h qp = 0 ∨ 4 ≤ headlineSearchScore h qp := by
  unfold headlineSearchScore
  by_cases hg : scoreGate h qp = true
  · rw [if_pos hg]
    exact Or.inr (rawScore_ge_of_gate h qp hg)
  · rw [if_neg hg]
    exact Or.inl rfl

theorem suppressedScore_ge (qp : QueryParts) (h : Headline) :
    suppressedScore qp h = 0 ∨ 4 ≤ suppressedScore qp h := by
  simp only [suppressedScore]
  split
  · split
    · exact Or.inl rfl
    · exact headlineSearchScore_ge h qp
  · exact headlineSearchScore_ge h qp

/-- C10: every candidate returned by `searchHeadlines` has score ≥ 4: the gate
requires a phrase hit (worth ≥ 4), two title token hits (worth ≥ 4) or raw
score ≥ 5, suppression only zeroes scores, and zero scores are filtered out. -/
theorem claim10_min_score :
    ∀ (dt : Option DomainTerms) (group query : Str) (items : List Headline) (limit : Nat)
      (c : ScoredCandidate),
      c ∈ searchHeadlines dt group query items limit → 4 ≤ c.score := by
  intro dt group query items limit c hc
  simp only [searchHeadlines] at hc
  by_cases hg : ((expandQueryWithDomain dt group (parseQueryParts query) query).phrases.isEmpty &&
      (expandQueryWithDomain dt group (parseQueryParts query) query).tokens.isEmpty) = true
  · rw [if_pos hg] at hc
    cases hc
  · rw [if_neg hg] at hc
    have hc' := List.take_subset _ _ hc
    have hc'' := ((sortByScoreDesc_perm _).mem_iff).mp hc'
    obtain ⟨_, hpos, h', _, hsc⟩ := scoredFrom_spec _ items 0 c hc''
    rcases suppressedScore_ge
        (expandQueryWithDomain dt group (parseQueryParts query) query) h' with h0 | h4 <;>
      omega

/-- Witness for `claim10_min_score` at a concrete search. -/
theorem claim10_min_score_witness : 4 ≤ (⟨0, 8⟩ : ScoredCandidate).score :=
  claim10_min_score none [] "\x22election results\x22".data
    [⟨"Election results announced".data, [], [], []⟩] 5 ⟨0, 8⟩ (by decide)

/-! ## Claim C8: per-page dedup -/

/-- The highest rank occurring in a candidate group. -/
def maxRankOf (g : List VideoCandidate) : Nat := (g.map videoRank).foldr max 0

/-- The effect on a single key of one `best.set` update. -/
def bestUpd : Option VideoCandidate → VideoCandidate → Option VideoCandidate
  | none, v => some v
  | some c, v => some (if videoRank c < videoRank v then v else c)

/-- The JS `Map.get`. -/
def lookupV (m : List (Str × VideoCandidate)) (k : Str) : Option VideoCandidate :=
  (m.find? (fun e => decide (e.1 = k))).map (fun e => e.2)

theorem lookupV_cons_eq (k₀ : Str) (c : VideoCandidate) (rest : List (Str × VideoCandidate)) :
    lookupV ((k₀, c) :: rest) k₀ = some c := by
  simp only [lookupV]
  rw [List.find?_cons_of_pos _ (by simp)]
  rfl

theorem lookupV_cons_ne (k₀ : Str) (c : VideoCandidate) (rest : List (Str × VideoCandidate))
    (k' : Str) (h : ¬(k₀ = k')) : lookupV ((k₀, c) :: rest) k' = lookupV rest k' := by
  simp only [lookupV]
  rw [List.find?_cons_of_neg _ (by simp only [decide_eq_true_eq]; exact h)]

theorem lookupV_dedupInsert (v : VideoCandidate) :
    ∀ (m : List (Str × VideoCandidate)) (k k' : Str),
      lookupV (dedupInsert m k v) k' =
        if k' = k then bestUpd (lookupV m k) v else lookupV m k' := by
  intro m
  induction m with
  | nil =>
    intro k k'
    by_cases h : k' = k
    · subst h
      simp [dedupInsert, lookupV, bestUpd]
    · have h' : ¬(k = k') := fun hk => h hk.symm
      simp [dedupInsert, lookupV, bestUpd, h, h']
  | cons e rest ih =>
    intro k k'
    rcases e with ⟨k₀, c⟩
    by_cases h0 : k₀ = k
    · subst h0
      rw [dedupInsert, if_pos rfl]
      by_cases h1 : k' = k₀
      · subst h1
        rw [if_pos rfl, lookupV_cons_eq, lookupV_cons_eq]
        rfl
      · rw [if_neg h1, lookupV_cons_ne k₀ _ rest k' (fun hk => h1 hk.symm),
          lookupV_cons_ne k₀ c rest k' (fun hk => h1 hk.symm)]
    · rw [dedupInsert, if_neg h0]
      by_cases h1 : k' = k₀
      · subst h1
        rw [if_neg h0, lookupV_cons_eq, lookupV_cons_eq]
      · rw [lookupV_cons_ne k₀ c (dedupInsert rest k v) k' (fun hk => h1 hk.symm), ih k k',
          lookupV_cons_ne k₀ c rest k h0,
          lookupV_cons_ne k₀ c rest k' (fun hk => h1 hk.symm)]

theorem lookupV_dedup_foldl :
    ∀ (l : List VideoCandidate) (m : List (Str × VideoCandidate)) (k : Str),
      lookupV (l.foldl (fun m v => dedupInsert m (groupKey v) v) m) k =
        (l.filter (fun v => decide (groupKey v = k))).foldl bestUpd (lookupV m k) := by
  intro l
  induction l with
  | nil => intro m k; rfl
  | cons v l ih =>
    intro m k
    rw [List.foldl_cons, ih, List.filter_cons]
    by_cases h : groupKey v = k
    · rw [if_pos (by simpa using h), List.foldl_cons]
      rw [lookupV_dedupInsert v m (groupKey v) k, if_pos h.symm, h]
    · rw [if_neg (by simpa using h)]
      rw [lookupV_dedupInsert v m (groupKey v) k, if_neg (fun hk => h hk.symm)]

/-- The running best of a group, as the JS loop computes it: the first
candidate of maximal rank wins. -/
def pickBest (c : VideoCandidate) (g : List VideoCandidate) : VideoCandidate :=
  g.foldl (fun b v => if videoRank b < videoRank v then v else b) c

theorem foldl_bestUpd_some :
    ∀ (g : List VideoCandidate) (c : VideoCandidate),
      g.foldl bestUpd (some c) = some (pickBest c g) := by
  intro g
  induction g with
  | nil => intro c; rfl
  | cons v g ih =>
    intro c
    rw [List.foldl_cons]
    show List.foldl bestUpd (some (if videoRank c < videoRank v then v else c)) g = _
    rw [ih]
    rfl

theorem maxRankOf_cons (v : VideoCandidate) (g : List VideoCandidate) :
    maxRankOf (v :: g) = max (videoRank v) (maxRankOf g) := rfl

theorem pickBest_spec :
    ∀ (g : List VideoCandidate) (c : VideoCandidate),
      some (pickBest c g) =
        ((c :: g).filter (fun v => decide (videoRank v = maxRankOf (c :: g)))).head? := by
  intro g
  induction g with
  | nil =>
    intro c
    simp [pickBest, maxRankOf]
  | cons v g ih =>
    intro c
    by_cases hcv : videoRank c < videoRank v
    · have h1 : pickBest c (v :: g) = pickBest v g := by
        simp [pickBest, hcv]
      rw [h1, ih v]
      have hvle : videoRank v ≤ maxRankOf (v :: g) := by
        rw [maxRankOf_cons]; exact Nat.le_max_left _ _
      have hM : maxRankOf (c :: v :: g) = maxRankOf (v :: g) := by
        rw [maxRankOf_cons c (v :: g)]
        exact Nat.max_eq_right (le_trans (le_of_lt hcv) hvle)
      rw [hM]
      have hc : ¬((fun w => decide (videoRank w = maxRankOf (v :: g))) c = true) := by
        simp only [decide_eq_true_eq]
        omega
      have hdrop : (c :: v :: g).filter (fun w => decide (videoRank w = maxRankOf (v :: g))) =
          (v :: g).filter (fun w => decide (videoRank w = maxRankOf (v :: g))) :=
        List.filter_cons_of_neg hc
      rw [hdrop]
    · have h1 : pickBest c (v :: g) = pickBest c g := by
        simp [pickBest, hcv]
      rw [h1, ih c]
      have hvc : videoRank v ≤ videoRank c := Nat.le_of_not_lt hcv
      have hM : maxRankOf (c :: v :: g) = maxRankOf (c :: g) := by
        rw [maxRankOf_cons c (v :: g), maxRankOf_cons v g, maxRankOf_cons c g,
          ← Nat.max_assoc, Nat.max_eq_left hvc]
      rw [hM]
      have hcle : videoRank c ≤ maxRankOf (c :: g) := by
        rw [maxRankOf_cons]; exact Nat.le_max_left _ _
      by_cases hveq : videoRank v = maxRankOf (c :: g)
      · have hceq : ((fun w => decide (videoRank w = maxRankOf (c :: g))) c = true) := by
          simp only [decide_eq_true_eq]
          omega
        have e1 : (c :: g).filter (fun w => decide (videoRank w = maxRankOf (c :: g))) =
            c :: g.filter (fun w => decide (videoRank w = maxRankOf (c :: g))) :=
          List.filter_cons_of_pos hceq
        have e2 : (c :: v :: g).filter (fun w => decide (videoRank w = maxRankOf (c :: g))) =
            c :: (v :: g).filter (fun w => decide (videoRank w = maxRankOf (c :: g))) :=
          List.filter_cons_of_pos hceq
        rw [e1, e2]
        simp
      · have hvne : ¬((fun w => decide (videoRank w = maxRankOf (c :: g))) v = true) := by
          simp only [decide_eq_true_eq]
          exact hveq
        have e2 : (v :: g).filter (fun w => decide (videoRank w = maxRankOf (c :: g))) =
            g.filter (fun w => decide (videoRank w = maxRankOf (c :: g))) :=
          List.filter_cons_of_neg hvne
        have e3 : (c :: v :: g).filter (fun w => decide (videoRank w = maxRankOf (c :: g))) =
            if (fun w => decide (videoRank w = maxRankOf (c :: g))) c = true then
              c :: (v :: g).filter (fun w => decide (videoRank w = maxRankOf (c :: g)))
            else (v :: g).filter (fun w => decide (videoRank w = maxRankOf (c :: g))) :=
          List.filter_cons
        have e4 : (c :: g).filter (fun w => decide (videoRank w = maxRankOf (c :: g))) =
            if (fun w => decide (videoRank w = maxRankOf (c :: g))) c = true then
              c :: g.filter (fun w => decide (videoRank w = maxRankOf (c :: g)))
            else g.filter (fun w => decide (videoRank w = maxRankOf (c :: g))) :=
          List.filter_cons
        rw [e3, e4, e2]

/-- Every stored pair's key is the group key of its value. -/
def keyOk (m : List (Str × VideoCandidate)) : Prop :=
  ∀ e ∈ m, groupKey e.2 = e.1

theorem dedupInsert_fst (v : VideoCandidate) :
    ∀ (m : List (Str × VideoCandidate)) (k : Str),
      (dedupInsert m k v).map Prod.fst =
        if k ∈ m.map Prod.fst then m.map Prod.fst else m.map Prod.fst ++ [k] := by
  intro m
  induction m with
  | nil => intro k; simp [dedupInsert]
  | cons e rest ih =>
    intro k
    rcases e with ⟨k₀, c⟩
    by_cases h0 : k₀ = k
    · subst h0
      rw [dedupInsert, if_pos rfl]
      show k₀ :: rest.map Prod.fst =
        if k₀ ∈ k₀ :: rest.map Prod.fst then k₀ :: rest.map Prod.fst
        else (k₀ :: rest.map Prod.fst) ++ [k₀]
      rw [if_pos (List.mem_cons_self k₀ (rest.map Prod.fst))]
    · rw [dedupInsert, if_neg h0]
      show k₀ :: (dedupInsert rest k v).map Prod.fst =
        if k ∈ k₀ :: rest.map Prod.fst then k₀ :: rest.map Prod.fst
        else (k₀ :: rest.map Prod.fst) ++ [k]
      rw [ih k]
      by_cases hk : k ∈ rest.map Prod.fst
      · rw [if_pos hk, if_pos (List.mem_cons_of_mem k₀ hk)]
      · have hnk : ¬(k ∈ k₀ :: rest.map Prod.fst) := by
          intro h
          rcases List.mem_cons.mp h with h | h
          · exact h0 h.symm
          · exact hk h
        rw [if_neg hk, if_neg hnk]
        rfl

theorem dedupInsert_keyOk (v : VideoCandidate) :
    ∀ (m : List (Str × VideoCandidate)) (k : Str),
      keyOk m → groupKey v = k → keyOk (dedupInsert m k v) := by
  intro m
  induction m with
  | nil =>
    intro k hm hv
    intro e he
    simp [dedupInsert] at he
    subst he
    exact hv
  | cons e₀ rest ih =>
    intro k hm hv
    obtain ⟨k₀, c⟩ := e₀
    by_cases h0 : k₀ = k
    · subst h0
      rw [dedupInsert, if_pos rfl]
      intro e he
      rcases List.mem_cons.mp he with rfl | he'
      · by_cases hr : videoRank c < videoRank v
        · simpa [hr] using hv
        · simpa [hr] using hm (k₀, c) (List.mem_cons_self _ _)
      · exact hm e (List.mem_cons_of_mem _ he')
    · rw [dedupInsert, if_neg h0]
      intro e he
      rcases List.mem_cons.mp he with rfl | he'
      · exact hm (k₀, c) (List.mem_cons_self _ _)
      · exact ih k (fun e' he'' => hm e' (List.mem_cons_of_mem _ he'')) hv e he'

theorem dedup_foldl_inv :
    ∀ (l : List VideoCandidate) (m : List (Str × VideoCandidate)),
      keyOk m → (m.map Prod.fst).Nodup →
      keyOk (l.foldl (fun m v => dedupInsert m (groupKey v) v) m) ∧
        ((l.foldl (fun m v => dedupInsert m (groupKey v) v) m).map Prod.fst).Nodup := by
  intro l
  induction l with
  | nil => intro m h1 h2; exact ⟨h1, h2⟩
  | cons v l ih =>
    intro m h1 h2
    rw [List.foldl_cons]
    refine ih _ (dedupInsert_keyOk v m (groupKey v) h1 rfl) ?_
    rw [dedupInsert_fst v m (groupKey v)]
    by_cases hk : groupKey v ∈ m.map Prod.fst
    · rw [if_pos hk]; exact h2
    · rw [if_neg hk]
      simp [List.nodup_append, h2, hk]

theorem values_filter_nil (k : Str) :
    ∀ (m : List (Str × VideoCandidate)), keyOk m → ¬(k ∈ m.map Prod.fst) →
      (m.map (fun e => e.2)).filter (fun v => decide (groupKey v = k)) = [] := by
  intro m
  induction m with
  | nil => intro _ _; rfl
  | cons e rest ih =>
    intro hko hk
    rcases e with ⟨k₀, c⟩
    have hc : groupKey c = k₀ := hko (k₀, c) (List.mem_cons_self _ _)
    have hk₀ : ¬(k₀ = k) := by
      intro h
      subst h
      exact hk (List.mem_cons_self k₀ (rest.map Prod.fst))
    have hkrest : ¬(k ∈ rest.map Prod.fst) := by
      intro h
      exact hk (List.mem_cons_of_mem k₀ h)
    have hpred : ¬((fun v => decide (groupKey v = k)) c = true) := by
      simp only [decide_eq_true_eq, hc]
      exact hk₀
    have e1 : (c :: rest.map (fun e => e.2)).filter (fun v => decide (groupKey v = k)) =
        (rest.map (fun e => e.2)).filter (fun v => decide (groupKey v = k)) :=
      List.filter_cons_of_neg hpred
    show (c :: rest.map (fun e => e.2)).filter (fun v => decide (groupKey v = k)) = []
    rw [e1]
    exact ih (fun e' he' => hko e' (List.mem_cons_of_mem _ he')) hkrest

theorem values_filter_eq_lookupV (k : Str) :
    ∀ (m : List (Str × VideoCandidate)), keyOk m → (m.map Prod.fst).Nodup →
      (m.map (fun e => e.2)).filter (fun v => decide (groupKey v = k)) =
        (lookupV m k).toList := by
  intro m
  induction m with
  | nil => intro _ _; rfl
  | cons e rest ih =>
    intro hko hnd
    rcases e with ⟨k₀, c⟩
    have hc : groupKey c = k₀ := hko (k₀, c) (List.mem_cons_self _ _)
    have hko' : keyOk rest := fun e' he' => hko e' (List.mem_cons_of_mem _ he')
    simp only [List.map_cons, List.nodup_cons] at hnd
    by_cases h0 : k₀ = k
    · subst h0
      have hpred : ((fun v => decide (groupKey v = k₀)) c = true) := by simp [hc]
      have e1 : (c :: rest.map (fun e => e.2)).filter (fun v => decide (groupKey v = k₀)) =
          c :: (rest.map (fun e => e.2)).filter (fun v => decide (groupKey v = k₀)) :=
        List.filter_cons_of_pos hpred
      show (c :: rest.map (fun e => e.2)).filter (fun v => decide (groupKey v = k₀)) =
        (lookupV ((k₀, c) :: rest) k₀).toList
      rw [e1, values_filter_nil k₀ rest hko' hnd.1, lookupV_cons_eq]
      rfl
    · have hpred : ¬((fun v => decide (groupKey v = k)) c = true) := by
        simp only [decide_eq_true_eq, hc]
        exact h0
      have e1 : (c :: rest.map (fun e => e.2)).filter (fun v => decide (groupKey v = k)) =
          (rest.map (fun e => e.2)).filter (fun v => decide (groupKey v = k)) :=
        List.filter_cons_of_neg hpred
      show (c :: rest.map (fun e => e.2)).filter (fun v => decide (groupKey v = k)) =
        (lookupV ((k₀, c) :: rest) k).toList
      rw [e1, ih hko' hnd.2, lookupV_cons_ne k₀ c rest k h0]

/-- C8: with per-page dedup enabled, each group (candidates sharing a
`pageUrl`-or-`srcUrl` key) keeps exactly one survivor — the first candidate
attaining the group's maximal rank (platform = direct = 3 > stream = 2 >
embed = 1), so first-seen wins rank ties; concretely, of three same-page
candidates of types mp4, embed, youtube (in that order) the whole filter keeps
exactly the mp4 candidate. -/
theorem claim8_dedup :
    (∀ (l : List VideoCandidate) (k : Str),
        (dedupPerPage l).filter (fun v => decide (groupKey v = k)) =
          ((l.filter (fun v => decide (groupKey v = k))).filter
            (fun v => decide (videoRank v =
              maxRankOf (l.filter (fun v => decide (groupKey v = k)))))).head?.toList) ∧
    applyVideoFilters ⟨false, true, false, "all".data, [], []⟩
        [⟨"a".data, "s1".data, "P".data, "mp4".data⟩,
         ⟨"b".data, "s2".data, "P".data, "embed".data⟩,
         ⟨"c".data, "s3".data, "P".data, "youtube".data⟩] =
      [⟨"a".data, "s1".data, "P".data, "mp4".data⟩] := by
  refine ⟨?_, by decide⟩
  intro l k
  obtain ⟨hko, hnd⟩ := dedup_foldl_inv l [] (fun e he => absurd he (List.not_mem_nil e))
    List.nodup_nil
  show ((l.foldl (fun m v => dedupInsert m (groupKey v) v) []).map (fun e => e.2)).filter
      (fun v => decide (groupKey v = k)) = _
  rw [values_filter_eq_lookupV k _ hko hnd, lookupV_dedup_foldl l [] k]
  rcases hg : l.filter (fun v => decide (groupKey v = k)) with _ | ⟨v, g'⟩
  · rfl
  · rw [List.foldl_cons]
    show (List.foldl bestUpd (some v) g').toList = _
    rw [foldl_bestUpd_some g' v, pickBest_spec g' v]

/-! ## Claim C9: idempotence of the video filter -/

theorem lexLe_total : ∀ (a b : Str), lexLe a b = true ∨ lexLe b a = true := by
  intro a
  induction a with
  | nil => intro b; exact Or.inl rfl
  | cons c as ih =>
    intro b
    cases b with
    | nil => exact Or.inr rfl
    | cons d bs =>
      rcases lt_trichotomy c d with h | h | h
      · left; simp [lexLe, h]
      · subst h
        rcases ih bs with h' | h'
        · left; simp [lexLe, h']
        · right; simp [lexLe, h']
      · right; simp [lexLe, h]

theorem lexLe_trans :
    ∀ (a b c : Str), lexLe a b = true → lexLe b c = true → lexLe a c = true := by
  intro a
  induction a with
  | nil => intro b c _ _; rfl
  | cons x as ih =>
    intro b c hab hbc
    cases b with
    | nil => simp [lexLe] at hab
    | cons y bs =>
      cases c with
      | nil => simp [lexLe] at hbc
      | cons z cs =>
        simp only [lexLe, Bool.or_eq_true, Bool.and_eq_true, decide_eq_true_eq] at hab hbc ⊢
        rcases hab with hab | ⟨hab, hab'⟩
        · rcases hbc with hbc | ⟨hbc, hbc'⟩
          · exact Or.inl (lt_trans hab hbc)
          · subst hbc; exact Or.inl hab
        · subst hab
          rcases hbc with hbc | ⟨hbc, hbc'⟩
          · exact Or.inl hbc
          · subst hbc
            exact Or.inr ⟨rfl, ih bs cs hab' hbc'⟩

theorem insertAsc_perm (x : VideoCandidate) :
    ∀ l, (insertAsc x l).Perm (x :: l) := by
  intro l
  induction l with
  | nil => exact List.Perm.refl _
  | cons y ys ih =>
    rw [insertAsc]
    by_cases h : lexLe (sortKeyV x) (sortKeyV y) = true
    · rw [if_pos h]
    · rw [if_neg h]
      exact (List.Perm.cons y ih).trans (List.Perm.swap x y ys)

theorem sortVideos_perm : ∀ l, (sortVideos l).Perm l := by
  intro l
  induction l with
  | nil => exact List.Perm.refl _
  | cons x xs ih =>
    show (insertAsc x (sortVideos xs)).Perm (x :: xs)
    exact (insertAsc_perm x (sortVideos xs)).trans (List.Perm.cons x ih)

theorem insertAsc_pairwise (x : VideoCandidate) :
    ∀ l, l.Pairwise (fun a b => lexLe (sortKeyV a) (sortKeyV b) = true) →
      (insertAsc x l).Pairwise (fun a b => lexLe (sortKeyV a) (sortKeyV b) = true) := by
  intro l
  induction l with
  | nil => intro _; simp [insertAsc]
  | cons y ys ih =>
    intro hp
    obtain ⟨hy, hys⟩ := List.pairwise_cons.mp hp
    rw [insertAsc]
    by_cases h : lexLe (sortKeyV x) (sortKeyV y) = true
    · rw [if_pos h]
      refine List.Pairwise.cons ?_ hp
      intro z hz
      rcases List.mem_cons.mp hz with rfl | hz'
      · exact h
      · exact lexLe_trans _ _ _ h (hy z hz')
    · rw [if_neg h]
      refine List.Pairwise.cons ?_ (ih hys)
      intro z hz
      have hz' : z ∈ x :: ys := ((insertAsc_perm x ys).mem_iff).mp hz
      rcases List.mem_cons.mp hz' with hzx | hz''
      · subst hzx
        rcases lexLe_total (sortKeyV z) (sortKeyV y) with h' | h'
        · exact absurd h' h
        · exact h'
      · exact hy z hz''

theorem sortVideos_pairwise :
    ∀ l, (sortVideos l).Pairwise (fun a b => lexLe (sortKeyV a) (sortKeyV b) = true) := by
  intro l
  induction l with
  | nil => simp [sortVideos]
  | cons x xs ih =>
    show (insertAsc x (sortVideos xs)).Pairwise _
    exact insertAsc_pairwise x _ ih

theorem sortVideos_eq_self :
    ∀ l, l.Pairwise (fun a b => lexLe (sortKeyV a) (sortKeyV b) = true) →
      sortVideos l = l := by
  intro l
  induction l with
  | nil => intro _; rfl
  | cons x xs ih =>
    intro hp
    obtain ⟨hx, hxs⟩ := List.pairwise_cons.mp hp
    show insertAsc x (sortVideos xs) = x :: xs
    rw [ih hxs]
    cases xs with
    | nil => rfl
    | cons y ys =>
      rw [insertAsc, if_pos (hx y (List.mem_cons_self y ys))]

theorem mem_dedupInsert_values (w v : VideoCandidate) :
    ∀ (m : List (Str × VideoCandidate)) (k : Str),
      w ∈ (dedupInsert m k v).map (fun e => e.2) →
        w ∈ m.map (fun e => e.2) ∨ w = v := by
  intro m
  induction m with
  | nil =>
    intro k h
    simp [dedupInsert] at h
    exact Or.inr h
  | cons e rest ih =>
    intro k h
    rcases e with ⟨k₀, c⟩
    by_cases h0 : k₀ = k
    · subst h0
      rw [dedupInsert, if_pos rfl] at h
      rcases List.mem_cons.mp h with h | h
      · by_cases hr : videoRank c < videoRank v
        · rw [if_pos hr] at h
          exact Or.inr h
        · rw [if_neg hr] at h
          refine Or.inl ?_
          show w ∈ c :: rest.map (fun e => e.2)
          rw [h]
          exact List.mem_cons_self c _
      · exact Or.inl (List.mem_cons_of_mem c h)
    · rw [dedupInsert, if_neg h0] at h
      rcases List.mem_cons.mp h with h | h
      · refine Or.inl ?_
        show w ∈ c :: rest.map (fun e => e.2)
        rw [h]
        exact List.mem_cons_self c _
      · rcases ih k h with h' | h'
        · exact Or.inl (List.mem_cons_of_mem c h')
        · exact Or.inr h'

theorem mem_dedup_foldl (w : VideoCandidate) :
    ∀ (l : List VideoCandidate) (m : List (Str × VideoCandidate)),
      w ∈ ((l.foldl (fun m v => dedupInsert m (groupKey v) v) m).map (fun e => e.2)) →
        w ∈ m.map (fun e => e.2) ∨ w ∈ l := by
  intro l
  induction l with
  | nil => intro m h; exact Or.inl h
  | cons v l ih =>
    intro m h
    rw [List.foldl_cons] at h
    rcases ih _ h with h' | h'
    · rcases mem_dedupInsert_values w v m (groupKey v) h' with h'' | h''
      · exact Or.inl h''
      · exact Or.inr (h'' ▸ List.mem_cons_self v l)
    · exact Or.inr (List.mem_cons_of_mem v h')

theorem mem_dedupPerPage (l : List VideoCandidate) (w : VideoCandidate) :
    w ∈ dedupPerPage l → w ∈ l := by
  intro h
  rcases mem_dedup_foldl w l [] h with h' | h'
  · cases h'
  · exact h'

theorem map_groupKey_values :
    ∀ (m : List (Str × VideoCandidate)), keyOk m →
      (m.map (fun e => e.2)).map groupKey = m.map Prod.fst := by
  intro m
  induction m with
  | nil => intro _; rfl
  | cons e rest ih =>
    intro hko
    rcases e with ⟨k₀, c⟩
    have hc : groupKey c = k₀ := hko (k₀, c) (List.mem_cons_self _ _)
    show groupKey c :: (rest.map (fun e => e.2)).map groupKey = k₀ :: rest.map Prod.fst
    rw [hc, ih (fun e' he' => hko e' (List.mem_cons_of_mem _ he'))]

theorem dedupPerPage_keys_nodup (l : List VideoCandidate) :
    ((dedupPerPage l).map groupKey).Nodup := by
  obtain ⟨hko, hnd⟩ := dedup_foldl_inv l [] (fun e he => absurd he (List.not_mem_nil e))
    List.nodup_nil
  show (((l.foldl (fun m v => dedupInsert m (groupKey v) v) []).map (fun e => e.2)).map
    groupKey).Nodup
  rw [map_groupKey_values _ hko]
  exact hnd

theorem dedupInsert_fresh (v : VideoCandidate) :
    ∀ (m : List (Str × VideoCandidate)) (k : Str),
      ¬(k ∈ m.map Prod.fst) → dedupInsert m k v = m ++ [(k, v)] := by
  intro m
  induction m with
  | nil => intro k _; rfl
  | cons e rest ih =>
    intro k hk
    rcases e with ⟨k₀, c⟩
    have h0 : ¬(k₀ = k) := by
      intro h
      subst h
      exact hk (List.mem_cons_self k₀ (rest.map Prod.fst))
    rw [dedupInsert, if_neg h0, ih k (fun h => hk (List.mem_cons_of_mem k₀ h))]
    rfl

theorem dedup_foldl_fresh :
    ∀ (l : List VideoCandidate) (m : List (Str × VideoCandidate)),
      (∀ w ∈ l, ¬(groupKey w ∈ m.map Prod.fst)) → (l.map groupKey).Nodup →
      l.foldl (fun m v => dedupInsert m (groupKey v) v) m =
        m ++ l.map (fun w => (groupKey w, w)) := by
  intro l
  induction l with
  | nil => intro m _ _; simp
  | cons v l ih =>
    intro m hfresh hnd
    rw [List.foldl_cons, dedupInsert_fresh v m (groupKey v)
      (hfresh v (List.mem_cons_self v l))]
    rw [List.map_cons, List.nodup_cons] at hnd
    rw [ih (m ++ [(groupKey v, v)]) ?_ hnd.2]
    · simp
    · intro w hw
      rw [List.map_append]
      intro hmem
      rcases List.mem_append.mp hmem with h | h
      · exact hfresh w (List.mem_cons_of_mem v hw) h
      · simp only [List.map_cons, List.map_nil, List.mem_singleton] at h
        exact hnd.1 (h ▸ List.mem_map_of_mem groupKey hw)

theorem dedupPerPage_eq_self (l : List VideoCandidate) :
    (l.map groupKey).Nodup → dedupPerPage l = l := by
  intro h
  show ((l.foldl (fun m v => dedupInsert m (groupKey v) v) []).map (fun e => e.2)) = l
  rw [dedup_foldl_fresh l [] (fun w _ hw => absurd hw (List.not_mem_nil _)) h]
  simp only [List.nil_append, List.map_map]
  exact List.map_id l

theorem mem_condFilter (b : Bool) (p : VideoCandidate → Bool) (l : List VideoCandidate)
    (v : VideoCandidate) (h : v ∈ condFilter b p l) : v ∈ l := by
  rw [condFilter] at h
  by_cases hb : b = true
  · rw [if_pos hb] at h
    exact List.mem_of_mem_filter h
  · rw [if_neg hb] at h
    exact h

theorem sat_condFilter (b : Bool) (p : VideoCandidate → Bool) (l : List VideoCandidate)
    (v : VideoCandidate) (h : v ∈ condFilter b p l) (hb : b = true) : p v = true := by
  rw [condFilter, if_pos hb] at h
  exact List.of_mem_filter h

theorem condFilter_eq_self (b : Bool) (p : VideoCandidate → Bool) (l : List VideoCandidate)
    (h : ∀ v ∈ l, b = true → p v = true) : condFilter b p l = l := by
  rw [condFilter]
  by_cases hb : b = true
  · rw [if_pos hb]
    exact List.filter_eq_self.mpr (fun v hv => h v hv hb)
  · rw [if_neg hb]

theorem mem_condDedup (b : Bool) (l : List VideoCandidate) (v : VideoCandidate)
    (h : v ∈ condDedup b l) : v ∈ l := by
  rw [condDedup] at h
  by_cases hb : b = true
  · rw [if_pos hb] at h
    exact mem_dedupPerPage l v h
  · rw [if_neg hb] at h
    exact h

theorem condDedup_eq_self (b : Bool) (l : List VideoCandidate)
    (h : b = true → (l.map groupKey).Nodup) : condDedup b l = l := by
  rw [condDedup]
  by_cases hb : b = true
  · rw [if_pos hb]
    exact dedupPerPage_eq_self l (h hb)
  · rw [if_neg hb]

/-- C9: `applyVideoFilters` is idempotent — with a fixed configuration, its
output is a fixed point: all four filters already hold on every surviving
candidate, the per-page dedup sees pairwise-distinct group keys, and the
stable sort leaves its own sorted output unchanged. -/
theorem claim9_idempotent :
    ∀ (cfg : VideoFilterConfig) (l : List VideoCandidate),
      applyVideoFilters cfg (applyVideoFilters cfg l) = applyVideoFilters cfg l := by
  intro cfg l
  simp only [applyVideoFilters]
  set qe := trim (cfg.searchText.map Char.toLower) with hqe
  set x1 := condFilter (decide (cfg.typeVal ≠ "all".data)) (typeFilterPred cfg.typeVal) l
    with hx1
  set x2 := condFilter cfg.playableOnly playablePred x1 with hx2
  set x3 := condFilter (decide (qe ≠ [])) (kwPred qe) x2 with hx3
  set x4 := condFilter cfg.fromSelectedOnly (fun v => decide (v.pageUrl ∈ cfg.selectedUrls))
    x3 with hx4
  set r := sortVideos (condDedup cfg.uniquePerPage x4) with hr
  have hr_sub : ∀ v, v ∈ r → v ∈ x4 := by
    intro v hv
    rw [hr] at hv
    exact mem_condDedup _ _ v (((sortVideos_perm _).mem_iff).mp hv)
  have h4sub : ∀ v, v ∈ x4 → v ∈ x3 := by
    intro v hv
    rw [hx4] at hv
    exact mem_condFilter _ _ _ v hv
  have h3sub : ∀ v, v ∈ x3 → v ∈ x2 := by
    intro v hv
    rw [hx3] at hv
    exact mem_condFilter _ _ _ v hv
  have h2sub : ∀ v, v ∈ x2 → v ∈ x1 := by
    intro v hv
    rw [hx2] at hv
    exact mem_condFilter _ _ _ v hv
  have h1 : condFilter (decide (cfg.typeVal ≠ "all".data)) (typeFilterPred cfg.typeVal) r
      = r := by
    apply condFilter_eq_self
    intro v hv hb
    have hv1 : v ∈ x1 := h2sub v (h3sub v (h4sub v (hr_sub v hv)))
    rw [hx1] at hv1
    exact sat_condFilter _ _ _ v hv1 hb
  have h2 : condFilter cfg.playableOnly playablePred r = r := by
    apply condFilter_eq_self
    intro v hv hb
    have hv2 : v ∈ x2 := h3sub v (h4sub v (hr_sub v hv))
    rw [hx2] at hv2
    exact sat_condFilter _ _ _ v hv2 hb
  have h3 : condFilter (decide (qe ≠ [])) (kwPred qe) r = r := by
    apply condFilter_eq_self
    intro v hv hb
    have hv3 : v ∈ x3 := h4sub v (hr_sub v hv)
    rw [hx3] at hv3
    exact sat_condFilter _ _ _ v hv3 hb
  have h4 : condFilter cfg.fromSelectedOnly (fun v => decide (v.pageUrl ∈ cfg.selectedUrls)) r
      = r := by
    apply condFilter_eq_self
    intro v hv hb
    have hv4 : v ∈ x4 := hr_sub v hv
    rw [hx4] at hv4
    exact sat_condFilter _ _ _ v hv4 hb
  have h5 : condDedup cfg.uniquePerPage r = r := by
    apply condDedup_eq_self
    intro hU
    have hd : condDedup cfg.uniquePerPage x4 = dedupPerPage x4 := by
      rw [condDedup, if_pos hU]
    have hnd := dedupPerPage_keys_nodup x4
    rw [← hd] at hnd
    have hperm := List.Perm.map groupKey (sortVideos_perm (condDedup cfg.uniquePerPage x4))
    rw [← hr] at hperm
    exact (hperm.nodup_iff).mpr hnd
  have h6 : sortVideos r = r := by
    rw [hr]
    exact sortVideos_eq_self _ (sortVideos_pairwise _)
  rw [h1, h2, h3, h4, h5, h6]

end NewsAssistant
